import Mathlib

/-!
Verification of the Karp-Miller coverability-tree implementation.

The Python source (`code.py`) is embedded shallowly:

* `MVal` models a marking entry: a finite integer or `float('inf')` (ω).
* `PetriNetwork`, `is_enabled`, `get_enabled_transitions`, `fire_transition`
  model the net class; Python exceptions are modelled by `Except PyErr`.
* `compare_markings`, `apply_omega` model the marking comparison and the
  ω-acceleration of the `CoverabilityTree` class.
* `build_tree` is modelled as a fueled loop (`buildLoop`) over an explicit
  arena state (`BuildState`); the Python `while new_nodes:` loop is the
  fueled recursion, `.ok none` meaning fuel ran out before the queue
  emptied and `.ok (some st)` meaning the loop terminated with state `st`.
* `analyze_properties` is modelled up to string formatting: it returns the
  boundedness flag, the deduplicated unbounded-place list, the dead-end
  count and the old count that the report prints.
* A small heap model (`fire_transition_heap`, `apply_omega_heap`) makes the
  `copy.deepcopy` allocations explicit so that freshness/no-mutation can be
  stated.
-/

set_option maxHeartbeats 4000000
set_option maxRecDepth 4000

namespace KarpMiller

/-- A marking entry: either a finite integer token count or `float('inf')`. -/
inductive MVal where
  | fin (n : Int)
  | omega
  deriving DecidableEq, Repr

/-- A transition's two weight maps `{'in': {...}, 'out': {...}}`; the lists
keep the Python dict insertion order. -/
structure Transition where
  inArcs : List (String × Int)
  outArcs : List (String × Int)
  deriving DecidableEq, Repr

/-- The `PetriNetwork` class: places, transitions (insertion-ordered dict)
and initial marking, exactly the three `__init__` fields. -/
structure PetriNetwork where
  places : List String
  transitions : List (String × Transition)
  initial_marking : List Int
  deriving DecidableEq, Repr

/-- Python exceptions raised by the embedded code: the explicit
`ValueError("Transition ... cannot be fired")` of `fire_transition`, an
`IndexError` from list subscription, and the `ValueError` of `list.index`. -/
inductive PyErr where
  | disabledTransition (t : String)
  | indexError
  | valueError
  deriving DecidableEq, Repr

/-- `marking[idx] < weight` where the left side may be `float('inf')`:
`inf < w` is `False` in Python. -/
def mvalLt (v : MVal) (w : Int) : Bool :=
  match v with
  | .omega => false
  | .fin n => decide (n < w)

/-- `new_marking[idx] -= weight` on one entry: `inf - w = inf`. -/
def mvalSub (v : MVal) (w : Int) : MVal :=
  match v with
  | .omega => .omega
  | .fin n => .fin (n - w)

/-- `new_marking[idx] += weight` on one entry: `inf + w = inf`. -/
def mvalAdd (v : MVal) (w : Int) : MVal :=
  match v with
  | .omega => .omega
  | .fin n => .fin (n + w)

/-- `self.places.index(place)`: position of the first occurrence, raising
`ValueError` when the place is unknown. -/
def listIndex (l : List String) (p : String) : Except PyErr Nat :=
  match l with
  | [] => .error .valueError
  | q :: rest =>
    if q = p then .ok 0
    else do
      let i ← listIndex rest p
      .ok (i + 1)

/-- Python dict lookup `self.transitions[transition]` / `in` test. -/
def lookupTrans (ts : List (String × Transition)) (name : String) : Option Transition :=
  match ts with
  | [] => none
  | (n, tr) :: rest => if n = name then some tr else lookupTrans rest name

/-- The loop body of `is_enabled`: for each input arc, look the place up and
fail the test as soon as `marking[idx] < weight`. -/
def enabledLoop (places : List String) (marking : List MVal) :
    List (String × Int) → Except PyErr Bool
  | [] => .ok true
  | (p, w) :: rest => do
    let idx ← listIndex places p
    match marking.get? idx with
    | none => .error .indexError
    | some v => if mvalLt v w then .ok false else enabledLoop places marking rest

/-- `PetriNetwork.is_enabled`: `False` for an unknown transition, otherwise
every `consumes` weight must be available (`ω` satisfies any weight). -/
def is_enabled (net : PetriNetwork) (transition : String) (marking : List MVal) :
    Except PyErr Bool :=
  match lookupTrans net.transitions transition with
  | none => .ok false
  | some tr => enabledLoop net.places marking tr.inArcs

/-- The list comprehension of `get_enabled_transitions`, keeping the dict
insertion order of the transitions. -/
def enabledFilter (net : PetriNetwork) (marking : List MVal) :
    List (String × Transition) → Except PyErr (List String)
  | [] => .ok []
  | (name, _) :: rest => do
    let e ← is_enabled net name marking
    let r ← enabledFilter net marking rest
    .ok (if e then name :: r else r)

/-- `PetriNetwork.get_enabled_transitions`. -/
def get_enabled_transitions (net : PetriNetwork) (marking : List MVal) :
    Except PyErr (List String) :=
  enabledFilter net marking net.transitions

/-- The input-arc loop of `fire_transition`: `new_marking[idx] -= weight`. -/
def fireArcsSub (places : List String) :
    List (String × Int) → List MVal → Except PyErr (List MVal)
  | [], m => .ok m
  | (p, w) :: rest, m => do
    let idx ← listIndex places p
    match m.get? idx with
    | none => .error .indexError
    | some v => fireArcsSub places rest (m.set idx (mvalSub v w))

/-- The output-arc loop of `fire_transition`: `new_marking[idx] += weight`. -/
def fireArcsAdd (places : List String) :
    List (String × Int) → List MVal → Except PyErr (List MVal)
  | [], m => .ok m
  | (p, w) :: rest, m => do
    let idx ← listIndex places p
    match m.get? idx with
    | none => .error .indexError
    | some v => fireArcsAdd places rest (m.set idx (mvalAdd v w))

/-- `PetriNetwork.fire_transition`: raise the explicit
`ValueError("Transition ... cannot be fired")` when not enabled, otherwise
deep-copy the marking and apply the consume then produce weights. -/
def fire_transition (net : PetriNetwork) (transition : String) (marking : List MVal) :
    Except PyErr (List MVal) := do
  let e ← is_enabled net transition marking
  if e then
    match lookupTrans net.transitions transition with
    | none => .error .valueError
    | some tr => do
      let m1 ← fireArcsSub net.places tr.inArcs marking
      fireArcsAdd net.places tr.outArcs m1
  else
    .error (.disabledTransition transition)

/-- The index loop of `CoverabilityTree.compare_markings`, with the three
accumulator flags `coverable`, `equal`, `greater`; `m2[i]` is indexed in
lockstep, raising `IndexError` when `m2` is shorter than `m1`. -/
def cmpGo : List MVal → List MVal → Bool → Bool → Bool →
    Except PyErr (Bool × Bool × Bool)
  | [], _, c, e, g => .ok (c, e, g)
  | _ :: _, [], _, _, _ => .error .indexError
  | a :: r1, b :: r2, c, e, g =>
    match a, b with
    | .omega, .omega => cmpGo r1 r2 c e g
    | .omega, .fin _ => cmpGo r1 r2 c e true
    | .fin _, .omega => cmpGo r1 r2 false false g
    | .fin x, .fin y =>
      if x > y then cmpGo r1 r2 c false true
      else if x < y then cmpGo r1 r2 false false g
      else cmpGo r1 r2 c e g

/-- `CoverabilityTree.compare_markings(m1, m2) -> (coverable, equal, greater)`. -/
def compare_markings (m1 m2 : List MVal) : Except PyErr (Bool × Bool × Bool) :=
  cmpGo m1 m2 true true false

/-- The index loop of `apply_omega`: Python's `and` short-circuits, so when
`result[i]` is already ω the ancestor entry is not read at all. -/
def applyOmegaGo : List MVal → List MVal → Except PyErr (List MVal)
  | [], _ => .ok []
  | a :: r1, anc =>
    if a = MVal.omega then do
      let r ← applyOmegaGo r1 (anc.drop 1)
      .ok (MVal.omega :: r)
    else
      match anc with
      | [] => .error .indexError
      | b :: r2 => do
        let r ← applyOmegaGo r1 r2
        match a, b with
        | .fin x, .fin y => .ok ((if x > y then MVal.omega else MVal.fin x) :: r)
        | _, _ => .ok (a :: r)

/-- `CoverabilityTree.apply_omega(m_prime, m_ancestor)`: deep-copy
`m_prime` and replace with ω every entry where both values are finite and
the candidate strictly exceeds the ancestor. -/
def apply_omega (m_prime m_ancestor : List MVal) : Except PyErr (List MVal) :=
  applyOmegaGo m_prime m_ancestor

/-- `CoverabilityTree.TreeNode`: parent, children and path-to-root hold node
ids into the tree's `nodes` arena (Python stores object references; only the
immutable `marking` of referenced nodes is ever read through them). -/
structure TreeNode where
  marking : List MVal
  node_id : Nat
  tag : String
  parent : Option Nat
  children : List Nat
  transition : Option String
  path_to_root : List Nat
  deriving DecidableEq, Repr

/-- The mutable state of `build_tree`: the arena `self.nodes`, the edge list
`self.edges`, the FIFO work queue `new_nodes` (node ids) and `node_counter`. -/
structure BuildState where
  nodes : List TreeNode
  edges : List (Nat × Nat × String)
  queue : List Nat
  counter : Nat
  deriving DecidableEq, Repr

/-- The marking stored at arena slot `i`, if any. -/
def markingAt (nodes : List TreeNode) (i : Nat) : Option (List MVal) :=
  (nodes.get? i).map (fun n => n.marking)

/-- In-place update `node.tag = t` of the arena slot `i`. -/
def setTag (nodes : List TreeNode) (i : Nat) (t : String) : List TreeNode :=
  match nodes.get? i with
  | some n => nodes.set i { n with tag := t }
  | none => nodes

/-- In-place update `current.children.append(new_node)` of arena slot `i`. -/
def addChildTo (nodes : List TreeNode) (i : Nat) (childId : Nat) : List TreeNode :=
  match nodes.get? i with
  | some n => nodes.set i { n with children := n.children ++ [childId] }
  | none => nodes

/-- The ancestor scan of the old-check: walk `current.path_to_root[:-1]` and
report whether some ancestor marking compares `equal` to `m`. -/
def findEqualAnc (nodes : List TreeNode) (m : List MVal) :
    List Nat → Except PyErr Bool
  | [] => .ok false
  | id :: rest =>
    match nodes.get? id with
    | none => .error .indexError
    | some a => do
      let r ← compare_markings m a.marking
      if r.2.1 then .ok true else findEqualAnc nodes m rest

/-- Line `firing_marking = [1000 if m == float('inf') else m for m in
current.marking]`: the sentinel substitution performed before firing. -/
def substMarking (m : List MVal) : List MVal :=
  m.map (fun v => if v = MVal.omega then MVal.fin 1000 else v)

/-- The restore loop after firing: put ω back at every position where
`current.marking` held ω. -/
def restoreOmega (orig fired : List MVal) : List MVal :=
  List.zipWith (fun o v => if o = MVal.omega then MVal.omega else v) orig fired

/-- The acceleration scan of `build_tree`: walk `current.path_to_root` (root
to current inclusive) and at the first ancestor with `coverable and not
equal` return `apply_omega` against it, stopping the walk. -/
def accelWalk (nodes : List TreeNode) (m : List MVal) :
    List Nat → Except PyErr (List MVal)
  | [] => .ok m
  | id :: rest =>
    match nodes.get? id with
    | none => .error .indexError
    | some a => do
      let r ← compare_markings m a.marking
      if r.1 && !r.2.1 then apply_omega m a.marking
      else accelWalk nodes m rest

/-- The `for t in enabled:` loop of `build_tree`: fire through the sentinel
substitution, restore ω, run the acceleration scan, then create and enqueue
the child node and record the edge. -/
def addChildren (net : PetriNetwork) (cid : Nat) (curM : List MVal)
    (curPath : List Nat) :
    List String → BuildState → Except PyErr BuildState
  | [], st => .ok st
  | t :: rest, st => do
    let fired ← fire_transition net t (substMarking curM)
    let restored := restoreOmega curM fired
    let mp ← accelWalk st.nodes restored curPath
    let nid := st.counter
    let child : TreeNode :=
      { marking := mp, node_id := nid, tag := "new", parent := some cid,
        children := [], transition := some t, path_to_root := curPath ++ [nid] }
    addChildren net cid curM curPath rest
      { nodes := addChildTo st.nodes cid nid ++ [child],
        edges := st.edges ++ [(cid, nid, t)],
        queue := st.queue ++ [nid],
        counter := nid + 1 }

/-- One iteration of the `while new_nodes:` loop for the dequeued node
`cid`: tag it processed, run the ancestor old-check, the dead-end check, and
otherwise expand every enabled transition. -/
def processNode (net : PetriNetwork) (st : BuildState) (cid : Nat) :
    Except PyErr BuildState :=
  match st.nodes.get? cid with
  | none => .error .indexError
  | some cur => do
    let st1 : BuildState := { st with nodes := setTag st.nodes cid "processed" }
    let isOld ← findEqualAnc st1.nodes cur.marking cur.path_to_root.dropLast
    if isOld then
      .ok { st1 with nodes := setTag st1.nodes cid "old" }
    else do
      let enabled ← get_enabled_transitions net cur.marking
      if enabled = [] then
        .ok { st1 with nodes := setTag st1.nodes cid "dead-end" }
      else
        addChildren net cid cur.marking cur.path_to_root enabled st1

/-- The fueled `while new_nodes:` loop; `.ok none` means the fuel ran out
before the queue emptied. -/
def buildLoop (net : PetriNetwork) : Nat → BuildState → Except PyErr (Option BuildState)
  | 0, _ => .ok none
  | fuel + 1, st =>
    match st.queue with
    | [] => .ok (some st)
    | cid :: rest => do
      let st1 ← processNode net { st with queue := rest } cid
      buildLoop net fuel st1

/-- The state after the initialization lines of `build_tree`: the root node
carries the net's initial marking, id 0, tag `new`, path `[root]`. -/
def initState (net : PetriNetwork) : BuildState :=
  { nodes := [{ marking := net.initial_marking.map MVal.fin, node_id := 0,
                tag := "new", parent := none, children := [],
                transition := none, path_to_root := [0] }],
    edges := [], queue := [0], counter := 1 }

/-- `CoverabilityTree.build_tree`, run with the given amount of fuel. -/
def build_tree (net : PetriNetwork) (fuel : Nat) : Except PyErr (Option BuildState) :=
  buildLoop net fuel (initState net)

/-- The inner marking scan of `analyze_properties`: clear the bounded flag
at every ω and collect the distinct unbounded place names in
first-encountered order. -/
def scanMarking (places : List String) :
    List MVal → Nat → Bool → List String → Except PyErr (Bool × List String)
  | [], _, bounded, ups => .ok (bounded, ups)
  | v :: rest, i, bounded, ups =>
    if v = MVal.omega then
      match places.get? i with
      | none => .error .indexError
      | some pname =>
        scanMarking places rest (i + 1) false
          (if pname ∈ ups then ups else ups ++ [pname])
    else
      scanMarking places rest (i + 1) bounded ups

/-- The node scan of `analyze_properties`, counting dead-end and old tags. -/
def analyzeLoop (places : List String) :
    List TreeNode → Bool → List String → Nat → Nat →
    Except PyErr (Bool × List String × Nat × Nat)
  | [], bounded, ups, d, o => .ok (bounded, ups, d, o)
  | n :: rest, bounded, ups, d, o => do
    let r ← scanMarking places n.marking 0 bounded ups
    analyzeLoop places rest r.1 r.2
      (if n.tag = "dead-end" then d + 1 else d)
      (if n.tag = "old" then o + 1 else o)

/-- `CoverabilityTree.analyze_properties`, up to string formatting: the
boundedness flag, the unbounded-place list, the dead-end count and the old
count that the report prints. -/
def analyze_properties (net : PetriNetwork) (nodes : List TreeNode) :
    Except PyErr (Bool × List String × Nat × Nat) :=
  analyzeLoop net.places nodes true [] 0 0

/-! ### Concrete nets used by the claims -/

/-- Scenario 1 of the spec: one place `P0`, initial marking `[1]`, one
transition `t1` consuming 1 from `P0` and producing 2 to `P0`. -/
def exGrow : PetriNetwork :=
  { places := ["P0"],
    transitions := [("t1", { inArcs := [("P0", 1)], outArcs := [("P0", 2)] })],
    initial_marking := [1] }

/-- A byte-identical copy of `exGrow`, built independently. -/
def exGrowCopy : PetriNetwork :=
  { places := ["P0"],
    transitions := [("t1", { inArcs := [("P0", 1)], outArcs := [("P0", 2)] })],
    initial_marking := [1] }

/-- Scenario 2 of the spec: one place, empty initial marking value, one
transition requiring a token; the root is an immediate dead end. -/
def exDead : PetriNetwork :=
  { places := ["P0"],
    transitions := [("t1", { inArcs := [("P0", 1)], outArcs := [] })],
    initial_marking := [0] }

/-- A structurally invalid input: marking length 2 but a single place. -/
def exInvalid : PetriNetwork :=
  { places := ["P0"],
    transitions := [("t1", { inArcs := [("P0", 1)], outArcs := [("P0", 1)] })],
    initial_marking := [0, 5] }

/-- A net with an arc weight above the 1000 sentinel. -/
def exBig : PetriNetwork :=
  { places := ["P0"],
    transitions := [("t1", { inArcs := [("P0", 1001)], outArcs := [("P0", 1)] })],
    initial_marking := [1] }

/-! ### Heap model of the two deep-copying operations

`fire_transition` and `apply_omega` both start with `copy.deepcopy` and then
mutate only the copy. To state freshness and absence of argument mutation,
the same source lines are re-read with the allocations explicit: a heap is a
list of marking cells, a Python list reference is a cell index, and
`deepcopy` appends a new cell. -/

/-- Read the cell `heap[r]`. -/
def heapGet (heap : List (List MVal)) (r : Nat) : Except PyErr (List MVal) :=
  match heap.get? r with
  | some m => .ok m
  | none => .error .indexError

/-- The input-arc loop of `fire_transition`, mutating the cell `r` in place. -/
def fireHeapArcsSub (places : List String) :
    List (String × Int) → List (List MVal) → Nat → Except PyErr (List (List MVal))
  | [], heap, _ => .ok heap
  | (p, w) :: rest, heap, r => do
    let idx ← listIndex places p
    let m ← heapGet heap r
    match m.get? idx with
    | none => .error .indexError
    | some v => fireHeapArcsSub places rest (heap.set r (m.set idx (mvalSub v w))) r

/-- The output-arc loop of `fire_transition`, mutating the cell `r` in place. -/
def fireHeapArcsAdd (places : List String) :
    List (String × Int) → List (List MVal) → Nat → Except PyErr (List (List MVal))
  | [], heap, _ => .ok heap
  | (p, w) :: rest, heap, r => do
    let idx ← listIndex places p
    let m ← heapGet heap r
    match m.get? idx with
    | none => .error .indexError
    | some v => fireHeapArcsAdd places rest (heap.set r (m.set idx (mvalAdd v w))) r

/-- `fire_transition` with explicit allocation: `new_marking =
copy.deepcopy(marking)` appends a fresh cell, and all writes go to it. -/
def fire_transition_heap (net : PetriNetwork) (transition : String)
    (heap : List (List MVal)) (r : Nat) : Except PyErr (List (List MVal) × Nat) := do
  let marking ← heapGet heap r
  let e ← is_enabled net transition marking
  if e then
    match lookupTrans net.transitions transition with
    | none => .error .valueError
    | some tr => do
      let heap1 ← fireHeapArcsSub net.places tr.inArcs (heap ++ [marking]) heap.length
      let heap2 ← fireHeapArcsAdd net.places tr.outArcs heap1 heap.length
      .ok (heap2, heap.length)
  else
    .error (.disabledTransition transition)

/-- The index loop of `apply_omega`, mutating the fresh result cell `rRes`
in place and reading the ancestor cell `rAnc`; the counter runs over the
initial length of the result. -/
def applyOmegaHeapGo (rRes rAnc : Nat) :
    Nat → Nat → List (List MVal) → Except PyErr (List (List MVal))
  | 0, _, heap => .ok heap
  | k + 1, i, heap => do
    let res ← heapGet heap rRes
    match res.get? i with
    | none => .error .indexError
    | some a =>
      if a = MVal.omega then applyOmegaHeapGo rRes rAnc k (i + 1) heap
      else do
        let anc ← heapGet heap rAnc
        match anc.get? i with
        | none => .error .indexError
        | some b =>
          match a, b with
          | .fin x, .fin y =>
            if x > y then
              applyOmegaHeapGo rRes rAnc k (i + 1) (heap.set rRes (res.set i MVal.omega))
            else applyOmegaHeapGo rRes rAnc k (i + 1) heap
          | _, _ => applyOmegaHeapGo rRes rAnc k (i + 1) heap

/-- `apply_omega` with explicit allocation: `result =
copy.deepcopy(m_prime)` appends a fresh cell, then the loop writes only
there. -/
def apply_omega_heap (heap : List (List MVal)) (rPrime rAnc : Nat) :
    Except PyErr (List (List MVal) × Nat) := do
  let mp ← heapGet heap rPrime
  let heap1 ← applyOmegaHeapGo heap.length rAnc mp.length 0 (heap ++ [mp])
  .ok (heap1, heap.length)

/-! ### Total characterizations of the comparison flags

`cmpGo` threads three Boolean accumulators through an indexed loop. The
following three structurally recursive functions compute the same flags
directly; `cmpGo_eq` below proves the correspondence whenever `m2` is at
least as long as `m1` (the loop raises `IndexError` otherwise). -/

/-- The `coverable` flag computed by `compare_markings`. -/
def codeCoverable : List MVal → List MVal → Bool
  | [], _ => true
  | _ :: _, [] => true
  | a :: r1, b :: r2 =>
    match a, b with
    | .omega, _ => codeCoverable r1 r2
    | .fin _, .omega => false
    | .fin x, .fin y => decide (y ≤ x) && codeCoverable r1 r2

/-- The `equal` flag computed by `compare_markings`. Note the code leaves
the flag untouched when `m1[i]` is ω, whatever `m2[i]` is. -/
def codeEqual : List MVal → List MVal → Bool
  | [], _ => true
  | _ :: _, [] => true
  | a :: r1, b :: r2 =>
    match a, b with
    | .omega, _ => codeEqual r1 r2
    | .fin _, .omega => false
    | .fin x, .fin y => decide (x = y) && codeEqual r1 r2

/-- The `greater` flag computed by `compare_markings`. -/
def codeGreater : List MVal → List MVal → Bool
  | [], _ => false
  | _ :: _, [] => false
  | a :: r1, b :: r2 =>
    match a, b with
    | .omega, .omega => codeGreater r1 r2
    | .omega, .fin _ => true
    | .fin _, .omega => codeGreater r1 r2
    | .fin x, .fin y => decide (y < x) || codeGreater r1 r2

/-! ### The acceleration step as the spec words it (§4.1 and step 5b)

These definitions are modelled from the spec's words, for comparison with
the code: §4.1 defines `coverable` componentwise with ω above every finite
value, `equal` as exact componentwise match, and `accelerate` as replacing
with ω every component where both values are finite and the candidate
exceeds the ancestor. -/

/-- Modelled from the spec (§4.1): one component of the coverability test,
`m1[i] ≥ m2[i]` with ω above everything and a finite value never covering
ω. -/
def mvalGe (a b : MVal) : Bool :=
  match a, b with
  | .omega, _ => true
  | .fin _, .omega => false
  | .fin x, .fin y => decide (y ≤ x)

/-- Modelled from the spec (§4.1): `coverable` holds iff the markings agree
in length and every component of `m1` is ≥ the one of `m2`. -/
def specCoverable (m1 m2 : List MVal) : Bool :=
  decide (m1.length = m2.length) && (List.zip m1 m2).all (fun ab => mvalGe ab.1 ab.2)

/-- Modelled from the spec (§4.1): `accelerate(candidate, ancestor)` puts ω
at every place where both values are finite and the candidate strictly
exceeds the ancestor. -/
def accelerateSpec (cand anc : List MVal) : List MVal :=
  List.zipWith (fun a b =>
    match a, b with
    | MVal.fin x, MVal.fin y => if x > y then MVal.omega else MVal.fin x
    | _, _ => a) cand anc

/-- Modelled from the spec (step 5b): walk the path from root to current
inclusive; at the first ancestor whose marking is coverable by `m` and not
exactly equal to it, apply the §4.1 accelerate and stop walking. -/
def specWalk (nodes : List TreeNode) (m : List MVal) : List Nat → Except PyErr (List MVal)
  | [] => .ok m
  | id :: rest =>
    match nodes.get? id with
    | none => .error .indexError
    | some a =>
      if specCoverable m a.marking && !(decide (m = a.marking)) then
        .ok (accelerateSpec m a.marking)
      else specWalk nodes m rest

/-- `addChildren` with the acceleration scan replaced by the spec's step 5b
walk; everything else is identical to the code. -/
def addChildrenSpec (net : PetriNetwork) (cid : Nat) (curM : List MVal)
    (curPath : List Nat) :
    List String → BuildState → Except PyErr BuildState
  | [], st => .ok st
  | t :: rest, st => do
    let fired ← fire_transition net t (substMarking curM)
    let restored := restoreOmega curM fired
    let mp ← specWalk st.nodes restored curPath
    let nid := st.counter
    let child : TreeNode :=
      { marking := mp, node_id := nid, tag := "new", parent := some cid,
        children := [], transition := some t, path_to_root := curPath ++ [nid] }
    addChildrenSpec net cid curM curPath rest
      { nodes := addChildTo st.nodes cid nid ++ [child],
        edges := st.edges ++ [(cid, nid, t)],
        queue := st.queue ++ [nid],
        counter := nid + 1 }

/-- `processNode` with the spec's step 5b walk. -/
def processNodeSpec (net : PetriNetwork) (st : BuildState) (cid : Nat) :
    Except PyErr BuildState :=
  match st.nodes.get? cid with
  | none => .error .indexError
  | some cur => do
    let st1 : BuildState := { st with nodes := setTag st.nodes cid "processed" }
    let isOld ← findEqualAnc st1.nodes cur.marking cur.path_to_root.dropLast
    if isOld then
      .ok { st1 with nodes := setTag st1.nodes cid "old" }
    else do
      let enabled ← get_enabled_transitions net cur.marking
      if enabled = [] then
        .ok { st1 with nodes := setTag st1.nodes cid "dead-end" }
      else
        addChildrenSpec net cid cur.marking cur.path_to_root enabled st1

/-- `buildLoop` with the spec's step 5b walk. -/
def buildLoopSpec (net : PetriNetwork) : Nat → BuildState → Except PyErr (Option BuildState)
  | 0, _ => .ok none
  | fuel + 1, st =>
    match st.queue with
    | [] => .ok (some st)
    | cid :: rest => do
      let st1 ← processNodeSpec net { st with queue := rest } cid
      buildLoopSpec net fuel st1

/-! ### The build invariant

`Inv` collects the facts that hold of the builder state between loop
iterations; it is established for the initial state and preserved by
`processNode`. The decisive field is `omega_anc`: any node whose marking
contains ω compares `equal` (in the code's buggy sense) to some proper
ancestor, so it is tagged `old` when dequeued and is never expanded —
hence every marking that is ever fired from is ω-free. -/
structure Inv (net : PetriNetwork) (st : BuildState) : Prop where
  counter_eq : st.counter = st.nodes.length
  ids : ∀ i n, st.nodes.get? i = some n → n.node_id = i
  mlen : ∀ i n, st.nodes.get? i = some n →
    n.marking.length = net.initial_marking.length
  path_closed : ∀ i n, st.nodes.get? i = some n →
    ∀ id ∈ n.path_to_root, id < st.nodes.length
  omega_anc : ∀ i n, st.nodes.get? i = some n → MVal.omega ∈ n.marking →
    ∃ id ∈ n.path_to_root.dropLast, ∃ am, markingAt st.nodes id = some am ∧
      codeEqual n.marking am = true
  queue_new : ∀ id ∈ st.queue, ∃ n, st.nodes.get? id = some n ∧
    n.tag = "new" ∧ n.children = []
  new_queued : ∀ i n, st.nodes.get? i = some n → n.tag = "new" → i ∈ st.queue
  queue_nodup : st.queue.Nodup
  tags : ∀ i n, st.nodes.get? i = some n →
    n.tag = "new" ∨ n.tag = "processed" ∨ n.tag = "old" ∨ n.tag = "dead-end"
  leaf : ∀ i n, st.nodes.get? i = some n →
    (n.tag = "old" ∨ n.tag = "dead-end") → n.children = []
  proc : ∀ i n, st.nodes.get? i = some n → n.tag = "processed" → n.children ≠ []

/-- The invariant during the child-creation loop: the current node `cid`
is already tagged `processed` but may still have an empty children list. -/
structure Mid (net : PetriNetwork) (cid : Nat) (curM : List MVal)
    (curPath : List Nat) (st : BuildState) : Prop where
  counter_eq : st.counter = st.nodes.length
  ids : ∀ i n, st.nodes.get? i = some n → n.node_id = i
  mlen : ∀ i n, st.nodes.get? i = some n →
    n.marking.length = net.initial_marking.length
  path_closed : ∀ i n, st.nodes.get? i = some n →
    ∀ id ∈ n.path_to_root, id < st.nodes.length
  omega_anc : ∀ i n, st.nodes.get? i = some n → MVal.omega ∈ n.marking →
    ∃ id ∈ n.path_to_root.dropLast, ∃ am, markingAt st.nodes id = some am ∧
      codeEqual n.marking am = true
  queue_new : ∀ id ∈ st.queue, ∃ n, st.nodes.get? id = some n ∧
    n.tag = "new" ∧ n.children = []
  new_queued : ∀ i n, st.nodes.get? i = some n → n.tag = "new" → i ∈ st.queue
  queue_nodup : st.queue.Nodup
  tags : ∀ i n, st.nodes.get? i = some n →
    n.tag = "new" ∨ n.tag = "processed" ∨ n.tag = "old" ∨ n.tag = "dead-end"
  leaf : ∀ i n, st.nodes.get? i = some n →
    (n.tag = "old" ∨ n.tag = "dead-end") → n.children = []
  procMid : ∀ i n, st.nodes.get? i = some n → n.tag = "processed" → i ≠ cid →
    n.children ≠ []
  cur_ok : ∃ cur, st.nodes.get? cid = some cur ∧ cur.tag = "processed" ∧
    cur.marking = curM ∧ cur.path_to_root = curPath
  cur_fin : MVal.omega ∉ curM
  curM_len : curM.length = net.initial_marking.length
  path_len : ∀ id ∈ curPath, ∀ a, st.nodes.get? id = some a →
    a.marking.length = net.initial_marking.length
  path_lt : ∀ id ∈ curPath, id < st.nodes.length

/-! ### Generic helper lemmas -/

theorem kpBindOk {α β : Type} (a : α) (f : α → Except PyErr β) :
    (Except.ok a >>= f : Except PyErr β) = f a := rfl

theorem kpBindError {α β : Type} (e : PyErr) (f : α → Except PyErr β) :
    (Except.error e >>= f : Except PyErr β) = .error e := rfl

theorem kpGetSetNe {α : Type} (l : List α) (i j : Nat) (a : α) (h : i ≠ j) :
    (l.set i a).get? j = l.get? j := by
  simp [List.get?_eq_getElem?, List.getElem?_set_ne h]

theorem kpGetSetSelf {α : Type} (l : List α) (i : Nat) (a : α) (h : i < l.length) :
    (l.set i a).get? i = some a := by
  simp [List.get?_eq_getElem?, List.getElem?_set_eq_of_lt a h]

theorem kpGetAppendLeft {α : Type} (l1 l2 : List α) (j : Nat) (h : j < l1.length) :
    (l1 ++ l2).get? j = l1.get? j := by
  simp [List.get?_eq_getElem?, List.getElem?_append_left h]

theorem kpGetAppendLen {α : Type} (l : List α) (x : α) :
    (l ++ [x]).get? l.length = some x := by
  simp [List.get?_eq_getElem?]

theorem kpGetLt {α : Type} (l : List α) (j : Nat) (a : α) (h : l.get? j = some a) :
    j < l.length := by
  rw [List.get?_eq_getElem?] at h
  exact (List.getElem?_eq_some.mp h).1

theorem kpGetNoneOfLe {α : Type} (l : List α) (j : Nat) (h : l.length ≤ j) :
    l.get? j = none := by
  simp [List.get?_eq_getElem?, List.getElem?_eq_none h]

/-! ### Frame and freshness of the heap-level operations -/

theorem fireHeapArcsSub_frame (places : List String) :
    ∀ (arcs : List (String × Int)) (heap : List (List MVal)) (r : Nat)
      (heap' : List (List MVal)),
      fireHeapArcsSub places arcs heap r = .ok heap' →
      ∀ j, j ≠ r → heap'.get? j = heap.get? j := by
  intro arcs
  induction arcs with
  | nil =>
    intro heap r heap' h j hj
    simp only [fireHeapArcsSub] at h
    cases h
    rfl
  | cons pw rest ih =>
    intro heap r heap' h j hj
    obtain ⟨p, w⟩ := pw
    simp only [fireHeapArcsSub] at h
    cases hidx : listIndex places p with
    | error e => rw [hidx, kpBindError] at h; exact absurd h (by simp)
    | ok idx =>
      rw [hidx, kpBindOk] at h
      cases hg : heapGet heap r with
      | error e => rw [hg, kpBindError] at h; exact absurd h (by simp)
      | ok m =>
        rw [hg, kpBindOk] at h
        cases hv : m.get? idx with
        | none => rw [hv] at h; exact absurd h (by simp)
        | some v =>
          rw [hv] at h
          have hrec := ih _ _ _ h j hj
          rw [hrec, kpGetSetNe _ _ _ _ (fun he => hj he.symm)]

theorem fireHeapArcsAdd_frame (places : List String) :
    ∀ (arcs : List (String × Int)) (heap : List (List MVal)) (r : Nat)
      (heap' : List (List MVal)),
      fireHeapArcsAdd places arcs heap r = .ok heap' →
      ∀ j, j ≠ r → heap'.get? j = heap.get? j := by
  intro arcs
  induction arcs with
  | nil =>
    intro heap r heap' h j hj
    simp only [fireHeapArcsAdd] at h
    cases h
    rfl
  | cons pw rest ih =>
    intro heap r heap' h j hj
    obtain ⟨p, w⟩ := pw
    simp only [fireHeapArcsAdd] at h
    cases hidx : listIndex places p with
    | error e => rw [hidx, kpBindError] at h; exact absurd h (by simp)
    | ok idx =>
      rw [hidx, kpBindOk] at h
      cases hg : heapGet heap r with
      | error e => rw [hg, kpBindError] at h; exact absurd h (by simp)
      | ok m =>
        rw [hg, kpBindOk] at h
        cases hv : m.get? idx with
        | none => rw [hv] at h; exact absurd h (by simp)
        | some v =>
          rw [hv] at h
          have hrec := ih _ _ _ h j hj
          rw [hrec, kpGetSetNe _ _ _ _ (fun he => hj he.symm)]

theorem applyOmegaHeapGo_frame (rRes rAnc : Nat) :
    ∀ (k i : Nat) (heap heap' : List (List MVal)),
      applyOmegaHeapGo rRes rAnc k i heap = .ok heap' →
      ∀ j, j ≠ rRes → heap'.get? j = heap.get? j := by
  intro k
  induction k with
  | zero =>
    intro i heap heap' h j hj
    simp only [applyOmegaHeapGo] at h
    cases h
    rfl
  | succ k ih =>
    intro i heap heap' h j hj
    simp only [applyOmegaHeapGo] at h
    cases hg : heapGet heap rRes with
    | error e => rw [hg, kpBindError] at h; exact absurd h (by simp)
    | ok res =>
      rw [hg, kpBindOk] at h
      split at h
      · exact absurd h (by simp)
      · split at h
        · exact ih _ _ _ h j hj
        · cases hga : heapGet heap rAnc with
          | error e => rw [hga, kpBindError] at h; exact absurd h (by simp)
          | ok anc =>
            rw [hga, kpBindOk] at h
            split at h
            · exact absurd h (by simp)
            · split at h
              · split at h
                · have hrec := ih _ _ _ h j hj
                  rw [hrec, kpGetSetNe _ _ _ _ (fun he => hj he.symm)]
                · exact ih _ _ _ h j hj
              · exact ih _ _ _ h j hj

/-- Claim C10: both deep-copying operations allocate a fresh cell (index
equal to the old heap size, hence distinct from every argument cell) and
leave every pre-existing cell — in particular the argument marking(s) —
exactly as they were. -/
theorem heap_operations_fresh_and_frame :
    (∀ (net : PetriNetwork) (t : String) (heap : List (List MVal)) (r : Nat)
        (out : List (List MVal) × Nat),
        fire_transition_heap net t heap r = .ok out →
        out.2 = heap.length ∧ r < heap.length ∧
        ∀ j, j < heap.length → out.1.get? j = heap.get? j) ∧
    (∀ (heap : List (List MVal)) (rP rA : Nat) (out : List (List MVal) × Nat),
        apply_omega_heap heap rP rA = .ok out →
        out.2 = heap.length ∧ rP < heap.length ∧
        ∀ j, j < heap.length → out.1.get? j = heap.get? j) := by
  constructor
  · intro net t heap r out h
    simp only [fire_transition_heap] at h
    cases hg : heapGet heap r with
    | error e => rw [hg, kpBindError] at h; exact absurd h (by simp)
    | ok m =>
      rw [hg, kpBindOk] at h
      have hr : r < heap.length := by
        unfold heapGet at hg
        cases hm : heap.get? r with
        | none => rw [hm] at hg; exact absurd hg (by simp)
        | some mm => exact kpGetLt _ _ _ hm
      cases he : is_enabled net t m with
      | error e => rw [he, kpBindError] at h; exact absurd h (by simp)
      | ok e =>
        rw [he, kpBindOk] at h
        cases e with
        | false => exact absurd h (by simp)
        | true =>
          simp only [if_pos] at h
          split at h
          · exact absurd h (by simp)
          · rename_i tr hl
            cases h1 : fireHeapArcsSub net.places tr.inArcs (heap ++ [m]) heap.length with
            | error e => rw [h1, kpBindError] at h; exact absurd h (by simp)
            | ok heap1 =>
              rw [h1, kpBindOk] at h
              cases h2 : fireHeapArcsAdd net.places tr.outArcs heap1 heap.length with
              | error e => rw [h2, kpBindError] at h; exact absurd h (by simp)
              | ok heap2 =>
                rw [h2, kpBindOk] at h
                cases h
                refine ⟨rfl, hr, fun j hj => ?_⟩
                have hne : j ≠ heap.length := Nat.ne_of_lt hj
                rw [fireHeapArcsAdd_frame _ _ _ _ _ h2 j hne,
                  fireHeapArcsSub_frame _ _ _ _ _ h1 j hne,
                  kpGetAppendLeft _ _ _ hj]
  · intro heap rP rA out h
    simp only [apply_omega_heap] at h
    cases hg : heapGet heap rP with
    | error e => rw [hg, kpBindError] at h; exact absurd h (by simp)
    | ok mp =>
      rw [hg, kpBindOk] at h
      have hr : rP < heap.length := by
        unfold heapGet at hg
        cases hm : heap.get? rP with
        | none => rw [hm] at hg; exact absurd hg (by simp)
        | some mm => exact kpGetLt _ _ _ hm
      cases h1 : applyOmegaHeapGo heap.length rA mp.length 0 (heap ++ [mp]) with
      | error e => rw [h1, kpBindError] at h; exact absurd h (by simp)
      | ok heap1 =>
        rw [h1, kpBindOk] at h
        cases h
        refine ⟨rfl, hr, fun j hj => ?_⟩
        have hne : j ≠ heap.length := Nat.ne_of_lt hj
        rw [applyOmegaHeapGo_frame _ _ _ _ _ _ h1 j hne, kpGetAppendLeft _ _ _ hj]

/-- Witness for C10 at concrete heaps: firing `t1` of the growth net from
cell 0 and accelerating `[2]` against `[1]` both leave the original cells
readable unchanged. -/
theorem heap_operations_fresh_and_frame_witness :
    ([[MVal.fin 1], [MVal.fin 2]] : List (List MVal)).get? 0 = [[MVal.fin 1]].get? 0 ∧
    ([[MVal.fin 2], [MVal.fin 1], [MVal.omega]] : List (List MVal)).get? 1 =
      [[MVal.fin 2], [MVal.fin 1]].get? 1 :=
  ⟨(heap_operations_fresh_and_frame.1 exGrow "t1" [[MVal.fin 1]] 0
      ([[MVal.fin 1], [MVal.fin 2]], 1) rfl).2.2 0 (by decide),
   (heap_operations_fresh_and_frame.2 [[MVal.fin 2], [MVal.fin 1]] 0 1
      ([[MVal.fin 2], [MVal.fin 1], [MVal.omega]], 2) rfl).2.2 1 (by decide)⟩

/-! ### Evaluation theorems about the concrete nets -/

/-- Claim C1: `compare_markings` is claimed to return `equal = false`
whenever a component of `m1` is ω while the matching component of `m2` is
finite; the code instead leaves the `equal` flag untouched in that branch,
so `compare_markings([ω], [1])` returns `equal = true`. -/
theorem compare_markings_omega_fin_equal_true :
    compare_markings [MVal.omega] [MVal.fin 1] = .ok (true, true, true) := by
  rfl

/-- Claim C2: on the single-place growth net the code builds only 2 nodes:
the root `[1]` (processed, one child) and the child `[ω]` reached by `t1`,
which the buggy equality check matches against the root `[1]` and tags
`old`; the analysis still reports unbounded `P0`, 0 dead ends, 1 old node.
The claimed 3-node tree (child processed, grandchild old) is not produced. -/
theorem build_tree_exGrow_two_nodes :
    (build_tree exGrow 10).map (Option.map (fun st =>
        (st.nodes.map (fun n => (n.tag, n.marking, n.children)), st.edges))) =
      .ok (some ([("processed", [MVal.fin 1], [1]), ("old", [MVal.omega], [])],
        [(0, 1, "t1")])) ∧
    (build_tree exGrow 10).map (Option.map (fun st =>
        analyze_properties exGrow st.nodes)) =
      .ok (some (.ok (false, ["P0"], 0, 1))) := by
  constructor <;> rfl

/-- Claim C3: the builder substitutes the sentinel 1000 for ω before firing
(line `firing_marking = [1000 if m == float('inf') else m ...]`); for a
consume weight of 1001 the substituted marking disables the transition and
`fire_transition` raises, whereas applying `fire_transition` directly to the
ω marking (the behavior the spec mandates) keeps it enabled and yields
`[ω]`. -/
theorem sentinel_substitution_diverges :
    substMarking [MVal.omega] = [MVal.fin 1000] ∧
    is_enabled exBig "t1" [MVal.omega] = .ok true ∧
    fire_transition exBig "t1" [MVal.omega] = .ok [MVal.omega] ∧
    fire_transition exBig "t1" (substMarking [MVal.omega]) =
      .error (.disabledTransition "t1") := by
  refine ⟨rfl, rfl, rfl, rfl⟩

/-- Claim C5: the code performs no input validation: on a net whose initial
marking length (2) differs from its place count (1) it quietly builds and
completes a one-node tree instead of reporting an aggregated validation
failure and producing no tree. -/
theorem build_tree_invalid_net_builds_tree :
    exInvalid.initial_marking.length ≠ exInvalid.places.length ∧
    (build_tree exInvalid 5).map (Option.map (fun st =>
        (st.nodes.map (fun n => (n.tag, n.marking)), st.edges))) =
      .ok (some ([("dead-end", [MVal.fin 0, MVal.fin 5])], [])) := by
  exact ⟨by decide, rfl⟩

/-- Claim C7: on the growth net the node `[ω]` is tagged `old` although its
marking is not exactly equal to the marking of its only proper ancestor,
the root `[1]` — the buggy `equal` flag, not exact equality, triggers the
old tag. -/
theorem old_tag_without_exact_equality :
    (build_tree exGrow 10).map (Option.map (fun st =>
        st.nodes.map (fun n => (n.tag, n.marking, n.path_to_root)))) =
      .ok (some [("processed", [MVal.fin 1], [0]),
                 ("old", [MVal.omega], [0, 1])]) ∧
    [MVal.omega] ≠ [MVal.fin 1] := by
  exact ⟨rfl, by decide⟩

/-- Claim C8: the whole construction is a pure function of the validated
net: two nets with identical places, transitions and initial marking
produce identical build results (same nodes with the same ids in the same
creation order, same tags, same edges, for any fuel). -/
theorem build_tree_deterministic (n1 n2 : PetriNetwork) (fuel : Nat)
    (hp : n1.places = n2.places) (ht : n1.transitions = n2.transitions)
    (hm : n1.initial_marking = n2.initial_marking) :
    build_tree n1 fuel = build_tree n2 fuel := by
  have h : n1 = n2 := by
    cases n1
    cases n2
    cases hp
    cases ht
    cases hm
    rfl
  rw [h]

/-- Witness for C8 at a concrete pair of identically-built nets. -/
theorem build_tree_deterministic_witness :
    build_tree exGrow 10 = build_tree exGrowCopy 10 :=
  build_tree_deterministic exGrow exGrowCopy 10 rfl rfl rfl

/-! ### More helper lemmas -/

theorem kpGetSome {α : Type} (l : List α) (j : Nat) (h : j < l.length) :
    ∃ a, l.get? j = some a := by
  rw [List.get?_eq_getElem?]
  exact ⟨l[j], List.getElem?_eq_some.mpr ⟨h, rfl⟩⟩

theorem kpNotMemSet {α : Type} (l : List α) (i : Nat) (x a : α)
    (hl : a ∉ l) (hx : a ≠ x) : a ∉ l.set i x := by
  intro hmem
  rcases List.mem_or_eq_of_mem_set hmem with h | h
  · exact hl h
  · exact hx h

theorem kpMemAppendSingleton {α : Type} (l : List α) (a x : α)
    (h : a ∈ l ++ [x]) : a ∈ l ∨ a = x := by
  rcases List.mem_append.mp h with h | h
  · exact Or.inl h
  · exact Or.inr (List.mem_singleton.mp h)

theorem kpNodupAppendSingleton {α : Type} (l : List α) (x : α)
    (hn : l.Nodup) (hx : x ∉ l) : (l ++ [x]).Nodup := by
  simp [List.nodup_append, hn, hx]

/-! ### The comparison loop computes the three total flags -/

theorem cmpGo_eq :
    ∀ (m1 m2 : List MVal) (c e g : Bool), m1.length ≤ m2.length →
      cmpGo m1 m2 c e g =
        .ok (c && codeCoverable m1 m2, e && codeEqual m1 m2, g || codeGreater m1 m2) := by
  intro m1
  induction m1 with
  | nil =>
    intro m2 c e g _
    simp [cmpGo, codeCoverable, codeEqual, codeGreater]
  | cons a r1 ih =>
    intro m2 c e g h
    cases m2 with
    | nil => exact absurd h (by simp)
    | cons b r2 =>
      have h2 : r1.length ≤ r2.length := by simpa using h
      cases a with
      | omega =>
        cases b with
        | omega => simp [cmpGo, codeCoverable, codeEqual, codeGreater, ih r2 _ _ _ h2]
        | fin y => simp [cmpGo, codeCoverable, codeEqual, codeGreater, ih r2 _ _ _ h2]
      | fin x =>
        cases b with
        | omega => simp [cmpGo, codeCoverable, codeEqual, codeGreater, ih r2 _ _ _ h2]
        | fin y =>
          rcases lt_trichotomy x y with hlt | hxy | hgt
          · simp [cmpGo, codeCoverable, codeEqual, codeGreater, ih r2 _ _ _ h2,
              show ¬ x > y by omega, hlt, show ¬ y ≤ x by omega,
              show x ≠ y by omega, show ¬ y < x by omega]
          · subst hxy
            simp [cmpGo, codeCoverable, codeEqual, codeGreater, ih r2 _ _ _ h2,
              show ¬ x > x by omega, show ¬ x < x by omega]
          · simp [cmpGo, codeCoverable, codeEqual, codeGreater, ih r2 _ _ _ h2,
              hgt, show y ≤ x by omega, show x ≠ y by omega]

theorem compare_markings_eq (m1 m2 : List MVal) (h : m1.length ≤ m2.length) :
    compare_markings m1 m2 =
      .ok (codeCoverable m1 m2, codeEqual m1 m2, codeGreater m1 m2) := by
  simpa [compare_markings] using cmpGo_eq m1 m2 true true false h

/-- On ω-free left arguments the buggy `equal` flag agrees with exact
equality of same-length markings. -/
theorem codeEqual_decide :
    ∀ (m1 m2 : List MVal), MVal.omega ∉ m1 → m1.length = m2.length →
      codeEqual m1 m2 = decide (m1 = m2) := by
  intro m1
  induction m1 with
  | nil =>
    intro m2 _ hl
    cases m2 with
    | nil => simp [codeEqual]
    | cons b r2 => exact absurd hl (by simp)
  | cons a r1 ih =>
    intro m2 h hl
    cases m2 with
    | nil => exact absurd hl (by simp)
    | cons b r2 =>
      have ha : a ≠ MVal.omega := fun he => h (he ▸ List.mem_cons_self a r1)
      have h1 : MVal.omega ∉ r1 := fun hm => h (List.mem_cons_of_mem _ hm)
      have hl2 : r1.length = r2.length := by simpa using hl
      cases a with
      | omega => exact absurd rfl ha
      | fin x =>
        cases b with
        | omega => simp [codeEqual]
        | fin y =>
          simp [codeEqual, ih r2 h1 hl2, List.cons.injEq, Bool.decide_and]

/-- The code's `coverable` flag agrees with the spec's §4.1 `coverable` on
same-length markings. -/
theorem codeCoverable_spec :
    ∀ (m1 m2 : List MVal), m1.length = m2.length →
      codeCoverable m1 m2 = specCoverable m1 m2 := by
  intro m1
  induction m1 with
  | nil =>
    intro m2 hl
    cases m2 with
    | nil => simp [codeCoverable, specCoverable]
    | cons b r2 => exact absurd hl (by simp)
  | cons a r1 ih =>
    intro m2 hl
    cases m2 with
    | nil => exact absurd hl (by simp)
    | cons b r2 =>
      have hl2 : r1.length = r2.length := by simpa using hl
      cases a with
      | omega => simp [codeCoverable, specCoverable, mvalGe, ih r2 hl2, hl2]
      | fin x =>
        cases b with
        | omega => simp [codeCoverable, specCoverable, mvalGe]
        | fin y => simp [codeCoverable, specCoverable, mvalGe, ih r2 hl2, hl2]

theorem applyOmegaGo_eq :
    ∀ (m anc : List MVal), m.length ≤ anc.length →
      applyOmegaGo m anc = .ok (accelerateSpec m anc) := by
  intro m
  induction m with
  | nil =>
    intro anc _
    simp [applyOmegaGo, accelerateSpec]
  | cons a r1 ih =>
    intro anc h
    cases anc with
    | nil => exact absurd h (by simp)
    | cons b r2 =>
      have h2 : r1.length ≤ r2.length := by simpa using h
      cases a with
      | omega => simp [applyOmegaGo, accelerateSpec, ih r2 h2, kpBindOk]
      | fin x =>
        cases b with
        | omega => simp [applyOmegaGo, accelerateSpec, ih r2 h2, kpBindOk]
        | fin y =>
          by_cases hxy : x > y
          · simp [applyOmegaGo, accelerateSpec, ih r2 h2, kpBindOk, hxy]
          · simp [applyOmegaGo, accelerateSpec, ih r2 h2, kpBindOk, hxy]

theorem apply_omega_eq (m anc : List MVal) (h : m.length ≤ anc.length) :
    apply_omega m anc = .ok (accelerateSpec m anc) :=
  applyOmegaGo_eq m anc h

/-- After accelerating an ω-free candidate that covers the ancestor, the
result compares `equal` (in the code's sense) to that very ancestor: every
still-finite component was squeezed between covering and not exceeding. -/
theorem codeEqual_accelerate :
    ∀ (m anc : List MVal), MVal.omega ∉ m → m.length = anc.length →
      codeCoverable m anc = true → codeEqual (accelerateSpec m anc) anc = true := by
  intro m
  induction m with
  | nil =>
    intro anc _ hl _
    cases anc with
    | nil => simp [accelerateSpec, codeEqual]
    | cons b r2 => exact absurd hl (by simp)
  | cons a r1 ih =>
    intro anc hm hl hc
    cases anc with
    | nil => exact absurd hl (by simp)
    | cons b r2 =>
      have ha : a ≠ MVal.omega := fun he => hm (he ▸ List.mem_cons_self a r1)
      have h1 : MVal.omega ∉ r1 := fun hmm => hm (List.mem_cons_of_mem _ hmm)
      have hl2 : r1.length = r2.length := by simpa using hl
      cases a with
      | omega => exact absurd rfl ha
      | fin x =>
        cases b with
        | omega => simp [codeCoverable] at hc
        | fin y =>
          simp only [codeCoverable, Bool.and_eq_true, decide_eq_true_eq] at hc
          obtain ⟨hyx, hcov⟩ := hc
          by_cases hgt : x > y
          · have hrec := ih r2 h1 hl2 hcov
            simp [accelerateSpec, codeEqual, hgt] at hrec ⊢
            exact hrec
          · have hxy : x = y := by omega
            have hrec := ih r2 h1 hl2 hcov
            simp [accelerateSpec, codeEqual, hgt, hxy] at hrec ⊢
            exact hrec

/-- The sentinel substitution is the identity on ω-free markings. -/
theorem substMarking_id :
    ∀ (m : List MVal), MVal.omega ∉ m → substMarking m = m := by
  intro m
  induction m with
  | nil => intro _; rfl
  | cons a r ih =>
    intro h
    have ha : a ≠ MVal.omega := fun he => h (he ▸ List.mem_cons_self a r)
    have h1 : MVal.omega ∉ r := fun hm => h (List.mem_cons_of_mem _ hm)
    have ih2 := ih h1
    simp only [substMarking, List.map_cons] at ih2 ⊢
    simp [ha, ih2]

/-- The ω-restore loop is the identity when the original marking is ω-free
and the lengths agree. -/
theorem restoreOmega_id :
    ∀ (orig fired : List MVal), MVal.omega ∉ orig →
      orig.length = fired.length → restoreOmega orig fired = fired := by
  intro orig
  induction orig with
  | nil =>
    intro fired _ hl
    cases fired with
    | nil => rfl
    | cons b r2 => exact absurd hl (by simp)
  | cons a r ih =>
    intro fired h hl
    cases fired with
    | nil => exact absurd hl (by simp)
    | cons b r2 =>
      have ha : a ≠ MVal.omega := fun he => h (he ▸ List.mem_cons_self a r)
      have h1 : MVal.omega ∉ r := fun hm => h (List.mem_cons_of_mem _ hm)
      have hl2 : r.length = r2.length := by simpa using hl
      simp [restoreOmega, ha, ih r2 h1 hl2]
      exact (ih r2 h1 hl2)

/-! ### Error classification: which exceptions each helper can raise -/

theorem listIndex_err :
    ∀ (l : List String) (p : String) (e : PyErr),
      listIndex l p = .error e → e = .valueError := by
  intro l
  induction l with
  | nil =>
    intro p e h
    simp only [listIndex] at h
    cases h
    rfl
  | cons q rest ih =>
    intro p e h
    simp only [listIndex] at h
    split at h
    · exact absurd h (by simp)
    · cases hr : listIndex rest p with
      | error e2 => rw [hr, kpBindError] at h; cases h; exact ih p e hr
      | ok i => rw [hr, kpBindOk] at h; exact absurd h (by simp)

theorem cmpGo_err :
    ∀ (m1 m2 : List MVal) (c e g : Bool) (er : PyErr),
      cmpGo m1 m2 c e g = .error er → er = .indexError := by
  intro m1
  induction m1 with
  | nil =>
    intro m2 c e g er h
    simp only [cmpGo] at h
    exact absurd h (by simp)
  | cons a r1 ih =>
    intro m2 c e g er h
    cases m2 with
    | nil =>
      simp only [cmpGo] at h
      cases h
      rfl
    | cons b r2 =>
      simp only [cmpGo] at h
      split at h
      · exact ih _ _ _ _ _ h
      · exact ih _ _ _ _ _ h
      · exact ih _ _ _ _ _ h
      · split at h
        · exact ih _ _ _ _ _ h
        · split at h
          · exact ih _ _ _ _ _ h
          · exact ih _ _ _ _ _ h

theorem compare_markings_err (m1 m2 : List MVal) (e : PyErr)
    (h : compare_markings m1 m2 = .error e) : e = .indexError :=
  cmpGo_err m1 m2 true true false e h

theorem applyOmegaGo_err :
    ∀ (m anc : List MVal) (e : PyErr),
      applyOmegaGo m anc = .error e → e = .indexError := by
  intro m
  induction m with
  | nil =>
    intro anc e h
    simp only [applyOmegaGo] at h
    exact absurd h (by simp)
  | cons a r1 ih =>
    intro anc e h
    simp only [applyOmegaGo] at h
    split at h
    · cases h1 : applyOmegaGo r1 (anc.drop 1) with
      | error e2 => rw [h1, kpBindError] at h; cases h; exact ih _ _ h1
      | ok rr => rw [h1, kpBindOk] at h; exact absurd h (by simp)
    · split at h
      · cases h
        rfl
      · rename_i b r2
        cases h1 : applyOmegaGo r1 r2 with
        | error e2 => rw [h1, kpBindError] at h; cases h; exact ih _ _ h1
        | ok rr =>
          rw [h1, kpBindOk] at h
          split at h
          · split at h <;> exact absurd h (by simp)
          · exact absurd h (by simp)

theorem enabledLoop_err (places : List String) (m : List MVal) :
    ∀ (arcs : List (String × Int)) (e : PyErr),
      enabledLoop places m arcs = .error e →
      e = .valueError ∨ e = .indexError := by
  intro arcs
  induction arcs with
  | nil =>
    intro e h
    simp only [enabledLoop] at h
    exact absurd h (by simp)
  | cons pw rest ih =>
    intro e h
    obtain ⟨p, w⟩ := pw
    simp only [enabledLoop] at h
    cases hidx : listIndex places p with
    | error e2 =>
      rw [hidx, kpBindError] at h
      cases h
      exact Or.inl (listIndex_err _ _ _ hidx)
    | ok idx =>
      rw [hidx, kpBindOk] at h
      split at h
      · cases h; exact Or.inr rfl
      · split at h
        · exact absurd h (by simp)
        · exact ih e h

theorem is_enabled_err (net : PetriNetwork) (t : String) (m : List MVal) (e : PyErr)
    (h : is_enabled net t m = .error e) : e = .valueError ∨ e = .indexError := by
  simp only [is_enabled] at h
  split at h
  · exact absurd h (by simp)
  · exact enabledLoop_err _ _ _ _ h

theorem enabledFilter_err (net : PetriNetwork) (m : List MVal) :
    ∀ (ts : List (String × Transition)) (e : PyErr),
      enabledFilter net m ts = .error e → e = .valueError ∨ e = .indexError := by
  intro ts
  induction ts with
  | nil =>
    intro e h
    simp only [enabledFilter] at h
    exact absurd h (by simp)
  | cons ntr rest ih =>
    intro e h
    obtain ⟨name, tr⟩ := ntr
    simp only [enabledFilter] at h
    cases he : is_enabled net name m with
    | error e2 =>
      rw [he, kpBindError] at h
      cases h
      exact is_enabled_err _ _ _ _ he
    | ok b =>
      rw [he, kpBindOk] at h
      cases hr : enabledFilter net m rest with
      | error e2 => rw [hr, kpBindError] at h; cases h; exact ih _ hr
      | ok r => rw [hr, kpBindOk] at h; exact absurd h (by simp)

theorem fireArcsSub_err (places : List String) :
    ∀ (arcs : List (String × Int)) (m : List MVal) (e : PyErr),
      fireArcsSub places arcs m = .error e → e = .valueError ∨ e = .indexError := by
  intro arcs
  induction arcs with
  | nil =>
    intro m e h
    simp only [fireArcsSub] at h
    exact absurd h (by simp)
  | cons pw rest ih =>
    intro m e h
    obtain ⟨p, w⟩ := pw
    simp only [fireArcsSub] at h
    cases hidx : listIndex places p with
    | error e2 =>
      rw [hidx, kpBindError] at h
      cases h
      exact Or.inl (listIndex_err _ _ _ hidx)
    | ok idx =>
      rw [hidx, kpBindOk] at h
      split at h
      · cases h; exact Or.inr rfl
      · exact ih _ _ h

theorem fireArcsAdd_err (places : List String) :
    ∀ (arcs : List (String × Int)) (m : List MVal) (e : PyErr),
      fireArcsAdd places arcs m = .error e → e = .valueError ∨ e = .indexError := by
  intro arcs
  induction arcs with
  | nil =>
    intro m e h
    simp only [fireArcsAdd] at h
    exact absurd h (by simp)
  | cons pw rest ih =>
    intro m e h
    obtain ⟨p, w⟩ := pw
    simp only [fireArcsAdd] at h
    cases hidx : listIndex places p with
    | error e2 =>
      rw [hidx, kpBindError] at h
      cases h
      exact Or.inl (listIndex_err _ _ _ hidx)
    | ok idx =>
      rw [hidx, kpBindOk] at h
      split at h
      · cases h; exact Or.inr rfl
      · exact ih _ _ h

/-- When the builder has already checked the transition enabled on the very
marking it passes, `fire_transition` cannot reach its disabled branch; any
failure is an index or place-lookup error. -/
theorem fire_transition_err_of_enabled (net : PetriNetwork) (t : String)
    (m : List MVal) (e : PyErr) (hen : is_enabled net t m = .ok true)
    (h : fire_transition net t m = .error e) :
    e = .valueError ∨ e = .indexError := by
  simp only [fire_transition] at h
  rw [hen, kpBindOk] at h
  simp only [if_pos] at h
  split at h
  · cases h; exact Or.inl rfl
  · rename_i tr hl
    cases h1 : fireArcsSub net.places tr.inArcs m with
    | error e2 =>
      rw [h1, kpBindError] at h
      cases h
      exact fireArcsSub_err _ _ _ _ h1
    | ok m1 =>
      rw [h1, kpBindOk] at h
      exact fireArcsAdd_err _ _ _ _ h

theorem findEqualAnc_err (nodes : List TreeNode) (m : List MVal) :
    ∀ (ids : List Nat) (e : PyErr),
      findEqualAnc nodes m ids = .error e → e = .indexError := by
  intro ids
  induction ids with
  | nil =>
    intro e h
    simp only [findEqualAnc] at h
    exact absurd h (by simp)
  | cons id0 rest ih =>
    intro e h
    simp only [findEqualAnc] at h
    split at h
    · cases h; rfl
    · rename_i a0 ha0
      cases hc : compare_markings m a0.marking with
      | error e2 =>
        rw [hc, kpBindError] at h
        cases h
        exact compare_markings_err _ _ _ hc
      | ok trip =>
        rw [hc, kpBindOk] at h
        split at h
        · exact absurd h (by simp)
        · exact ih _ h

theorem accelWalk_err (nodes : List TreeNode) (m : List MVal) :
    ∀ (ids : List Nat) (e : PyErr),
      accelWalk nodes m ids = .error e → e = .indexError := by
  intro ids
  induction ids with
  | nil =>
    intro e h
    simp only [accelWalk] at h
    exact absurd h (by simp)
  | cons id0 rest ih =>
    intro e h
    simp only [accelWalk] at h
    split at h
    · cases h; rfl
    · rename_i a0 ha0
      cases hc : compare_markings m a0.marking with
      | error e2 =>
        rw [hc, kpBindError] at h
        cases h
        exact compare_markings_err _ _ _ hc
      | ok trip =>
        rw [hc, kpBindOk] at h
        split at h
        · exact applyOmegaGo_err _ _ _ h
        · exact ih _ h

/-! ### Length and ω-freeness preservation -/

theorem fireArcsSub_length (places : List String) :
    ∀ (arcs : List (String × Int)) (m m' : List MVal),
      fireArcsSub places arcs m = .ok m' → m'.length = m.length := by
  intro arcs
  induction arcs with
  | nil =>
    intro m m' h
    simp only [fireArcsSub] at h
    cases h
    rfl
  | cons pw rest ih =>
    intro m m' h
    obtain ⟨p, w⟩ := pw
    simp only [fireArcsSub] at h
    cases hidx : listIndex places p with
    | error e => rw [hidx, kpBindError] at h; exact absurd h (by simp)
    | ok idx =>
      rw [hidx, kpBindOk] at h
      split at h
      · exact absurd h (by simp)
      · rw [ih _ _ h, List.length_set]

theorem fireArcsAdd_length (places : List String) :
    ∀ (arcs : List (String × Int)) (m m' : List MVal),
      fireArcsAdd places arcs m = .ok m' → m'.length = m.length := by
  intro arcs
  induction arcs with
  | nil =>
    intro m m' h
    simp only [fireArcsAdd] at h
    cases h
    rfl
  | cons pw rest ih =>
    intro m m' h
    obtain ⟨p, w⟩ := pw
    simp only [fireArcsAdd] at h
    cases hidx : listIndex places p with
    | error e => rw [hidx, kpBindError] at h; exact absurd h (by simp)
    | ok idx =>
      rw [hidx, kpBindOk] at h
      split at h
      · exact absurd h (by simp)
      · rw [ih _ _ h, List.length_set]

theorem fire_transition_length (net : PetriNetwork) (t : String)
    (m m' : List MVal) (h : fire_transition net t m = .ok m') :
    m'.length = m.length := by
  simp only [fire_transition] at h
  cases he : is_enabled net t m with
  | error e => rw [he, kpBindError] at h; exact absurd h (by simp)
  | ok e =>
    rw [he, kpBindOk] at h
    cases e with
    | false => exact absurd h (by simp)
    | true =>
      simp only [if_pos] at h
      split at h
      · exact absurd h (by simp)
      · rename_i tr hl
        cases h1 : fireArcsSub net.places tr.inArcs m with
        | error e => rw [h1, kpBindError] at h; exact absurd h (by simp)
        | ok m1 =>
          rw [h1, kpBindOk] at h
          rw [fireArcsAdd_length _ _ _ _ h, fireArcsSub_length _ _ _ _ h1]

theorem fireArcsSub_no_omega (places : List String) :
    ∀ (arcs : List (String × Int)) (m m' : List MVal),
      MVal.omega ∉ m → fireArcsSub places arcs m = .ok m' → MVal.omega ∉ m' := by
  intro arcs
  induction arcs with
  | nil =>
    intro m m' hm h
    simp only [fireArcsSub] at h
    cases h
    exact hm
  | cons pw rest ih =>
    intro m m' hm h
    obtain ⟨p, w⟩ := pw
    simp only [fireArcsSub] at h
    cases hidx : listIndex places p with
    | error e => rw [hidx, kpBindError] at h; exact absurd h (by simp)
    | ok idx =>
      rw [hidx, kpBindOk] at h
      split at h
      · exact absurd h (by simp)
      · rename_i v hv
        have hvm : v ∈ m := List.get?_mem hv
        have hvo : v ≠ MVal.omega := fun he => hm (he ▸ hvm)
        have hns : MVal.omega ∉ m.set idx (mvalSub v w) := by
          refine kpNotMemSet _ _ _ _ hm ?_
          cases v with
          | omega => exact absurd rfl hvo
          | fin n => simp [mvalSub]
        exact ih _ _ hns h

theorem fireArcsAdd_no_omega (places : List String) :
    ∀ (arcs : List (String × Int)) (m m' : List MVal),
      MVal.omega ∉ m → fireArcsAdd places arcs m = .ok m' → MVal.omega ∉ m' := by
  intro arcs
  induction arcs with
  | nil =>
    intro m m' hm h
    simp only [fireArcsAdd] at h
    cases h
    exact hm
  | cons pw rest ih =>
    intro m m' hm h
    obtain ⟨p, w⟩ := pw
    simp only [fireArcsAdd] at h
    cases hidx : listIndex places p with
    | error e => rw [hidx, kpBindError] at h; exact absurd h (by simp)
    | ok idx =>
      rw [hidx, kpBindOk] at h
      split at h
      · exact absurd h (by simp)
      · rename_i v hv
        have hvm : v ∈ m := List.get?_mem hv
        have hvo : v ≠ MVal.omega := fun he => hm (he ▸ hvm)
        have hns : MVal.omega ∉ m.set idx (mvalAdd v w) := by
          refine kpNotMemSet _ _ _ _ hm ?_
          cases v with
          | omega => exact absurd rfl hvo
          | fin n => simp [mvalAdd]
        exact ih _ _ hns h

theorem fire_transition_no_omega (net : PetriNetwork) (t : String)
    (m m' : List MVal) (hm : MVal.omega ∉ m)
    (h : fire_transition net t m = .ok m') : MVal.omega ∉ m' := by
  simp only [fire_transition] at h
  cases he : is_enabled net t m with
  | error e => rw [he, kpBindError] at h; exact absurd h (by simp)
  | ok e =>
    rw [he, kpBindOk] at h
    cases e with
    | false => exact absurd h (by simp)
    | true =>
      simp only [if_pos] at h
      split at h
      · exact absurd h (by simp)
      · rename_i tr hl
        cases h1 : fireArcsSub net.places tr.inArcs m with
        | error e => rw [h1, kpBindError] at h; exact absurd h (by simp)
        | ok m1 =>
          rw [h1, kpBindOk] at h
          exact fireArcsAdd_no_omega _ _ _ _ (fireArcsSub_no_omega _ _ _ _ hm h1) h

theorem applyOmegaGo_length :
    ∀ (m anc r : List MVal), applyOmegaGo m anc = .ok r → r.length = m.length := by
  intro m
  induction m with
  | nil =>
    intro anc r h
    simp only [applyOmegaGo] at h
    cases h
    rfl
  | cons a r1 ih =>
    intro anc r h
    simp only [applyOmegaGo] at h
    split at h
    · cases h1 : applyOmegaGo r1 (anc.drop 1) with
      | error e => rw [h1, kpBindError] at h; exact absurd h (by simp)
      | ok rr =>
        rw [h1, kpBindOk] at h
        cases h
        simp [ih _ _ h1]
    · split at h
      · exact absurd h (by simp)
      · rename_i b r2
        cases h1 : applyOmegaGo r1 r2 with
        | error e => rw [h1, kpBindError] at h; exact absurd h (by simp)
        | ok rr =>
          rw [h1, kpBindOk] at h
          split at h
          · cases h
            simp [ih _ _ h1]
          · cases h
            simp [ih _ _ h1]

/-! ### Behavior of the two ancestor scans -/

theorem enabledFilter_mem (net : PetriNetwork) (m : List MVal) :
    ∀ (ts : List (String × Transition)) (res : List String),
      enabledFilter net m ts = .ok res →
      ∀ t ∈ res, is_enabled net t m = .ok true := by
  intro ts
  induction ts with
  | nil =>
    intro res h t ht
    simp only [enabledFilter] at h
    cases h
    simp at ht
  | cons ntr rest ih =>
    intro res h t ht
    obtain ⟨name, tr⟩ := ntr
    simp only [enabledFilter] at h
    cases he : is_enabled net name m with
    | error e => rw [he, kpBindError] at h; exact absurd h (by simp)
    | ok b =>
      rw [he, kpBindOk] at h
      cases hr : enabledFilter net m rest with
      | error e2 => rw [hr, kpBindError] at h; exact absurd h (by simp)
      | ok r =>
        rw [hr, kpBindOk] at h
        cases b with
        | true =>
          cases h
          rcases List.mem_cons.mp (by simpa using ht) with h1 | h1
          · subst h1; exact he
          · exact ih r hr t h1
        | false =>
          cases h
          exact ih r hr t (by simpa using ht)

theorem findEqualAnc_false (nodes : List TreeNode) (m : List MVal) :
    ∀ (ids : List Nat), findEqualAnc nodes m ids = .ok false →
      ∀ id ∈ ids, ∀ a, nodes.get? id = some a →
        ∃ c g, compare_markings m a.marking = .ok (c, false, g) := by
  intro ids
  induction ids with
  | nil =>
    intro _ id hid
    simp at hid
  | cons id0 rest ih =>
    intro h id hid a ha
    simp only [findEqualAnc] at h
    split at h
    · exact absurd h (by simp)
    · rename_i a0 ha0
      cases hc : compare_markings m a0.marking with
      | error e => rw [hc, kpBindError] at h; exact absurd h (by simp)
      | ok trip =>
        rw [hc, kpBindOk] at h
        obtain ⟨c, e2, g⟩ := trip
        by_cases he2 : e2 = true
        · subst he2
          rw [if_pos rfl] at h
          exact absurd h (by simp)
        · have he2f : e2 = false := by
            cases e2
            · rfl
            · exact absurd rfl he2
          subst he2f
          rw [if_neg (by simp)] at h
          rcases List.mem_cons.mp hid with h1 | h1
          · subst h1
            have haa : a0 = a := Option.some.inj (ha0.symm.trans ha)
            subst haa
            exact ⟨c, g, hc⟩
          · exact ih h id h1 a ha

theorem accelWalk_cases (nodes : List TreeNode) (m : List MVal) :
    ∀ (ids : List Nat) (r : List MVal), accelWalk nodes m ids = .ok r →
      r = m ∨ ∃ id ∈ ids, ∃ a, nodes.get? id = some a ∧ ∃ g,
        compare_markings m a.marking = .ok (true, false, g) ∧
        apply_omega m a.marking = .ok r := by
  intro ids
  induction ids with
  | nil =>
    intro r h
    simp only [accelWalk] at h
    cases h
    exact Or.inl rfl
  | cons id0 rest ih =>
    intro r h
    simp only [accelWalk] at h
    split at h
    · exact absurd h (by simp)
    · rename_i a0 ha0
      cases hc : compare_markings m a0.marking with
      | error e => rw [hc, kpBindError] at h; exact absurd h (by simp)
      | ok trip =>
        rw [hc, kpBindOk] at h
        obtain ⟨c, e2, g⟩ := trip
        by_cases hcond : (c && !e2) = true
        · rw [if_pos hcond] at h
          have hce : c = true ∧ e2 = false := by
            cases c <;> cases e2 <;> simp_all
          right
          refine ⟨id0, List.mem_cons_self _ _, a0, ha0, g, ?_, h⟩
          rw [hce.1, hce.2] at hc
          exact hc
        · rw [if_neg hcond] at h
          rcases ih r h with h1 | ⟨id, hid, a, ha, g2, hcg, hap⟩
          · exact Or.inl h1
          · exact Or.inr ⟨id, List.mem_cons_of_mem _ hid, a, ha, g2, hcg, hap⟩

/-- On the inputs the builder actually feeds it (an ω-free successor and
same-length ancestor markings), the code's acceleration scan coincides with
the spec's step 5b walk. -/
theorem accelWalk_eq_specWalk (nodes : List TreeNode) (m : List MVal)
    (hm : MVal.omega ∉ m) :
    ∀ (ids : List Nat),
      (∀ id ∈ ids, ∀ a, nodes.get? id = some a → a.marking.length = m.length) →
      accelWalk nodes m ids = specWalk nodes m ids := by
  intro ids
  induction ids with
  | nil => intro _; rfl
  | cons id0 rest ih =>
    intro hlen
    simp only [accelWalk, specWalk]
    cases ha0 : nodes.get? id0 with
    | none => rfl
    | some a0 =>
      have hl : a0.marking.length = m.length :=
        hlen id0 (List.mem_cons_self _ _) a0 ha0
      have hcmp := compare_markings_eq m a0.marking (le_of_eq hl.symm)
      simp only [hcmp, kpBindOk]
      rw [codeCoverable_spec m a0.marking hl.symm,
        codeEqual_decide m a0.marking hm hl.symm]
      by_cases hcond : (specCoverable m a0.marking && !decide (m = a0.marking)) = true
      · rw [if_pos hcond, if_pos hcond]
        exact apply_omega_eq m a0.marking (le_of_eq hl.symm)
      · rw [if_neg hcond, if_neg hcond]
        exact ih (fun id hid a ha => hlen id (List.mem_cons_of_mem _ hid) a ha)

/-! ### Characterizations of the arena updates -/

theorem setTag_length (nodes : List TreeNode) (i : Nat) (t : String) :
    (setTag nodes i t).length = nodes.length := by
  unfold setTag
  split
  · rw [List.length_set]
  · rfl

theorem setTag_get? (nodes : List TreeNode) (i : Nat) (t : String) (j : Nat) :
    (setTag nodes i t).get? j =
      if j = i then (nodes.get? i).map (fun n => { n with tag := t })
      else nodes.get? j := by
  unfold setTag
  cases hi : nodes.get? i with
  | none =>
    by_cases hji : j = i
    · subst hji
      rw [if_pos rfl]
      exact hi
    · rw [if_neg hji]
  | some n =>
    by_cases hji : j = i
    · subst hji
      rw [if_pos rfl]
      show (nodes.set j { n with tag := t }).get? j = some { n with tag := t }
      exact kpGetSetSelf _ _ _ (kpGetLt _ _ _ hi)
    · rw [if_neg hji]
      show (nodes.set i { n with tag := t }).get? j = nodes.get? j
      exact kpGetSetNe _ _ _ _ (fun he => hji he.symm)

theorem addChildTo_length (nodes : List TreeNode) (i c : Nat) :
    (addChildTo nodes i c).length = nodes.length := by
  unfold addChildTo
  split
  · rw [List.length_set]
  · rfl

theorem addChildTo_get? (nodes : List TreeNode) (i c : Nat) (j : Nat) :
    (addChildTo nodes i c).get? j =
      if j = i then (nodes.get? i).map (fun n => { n with children := n.children ++ [c] })
      else nodes.get? j := by
  unfold addChildTo
  cases hi : nodes.get? i with
  | none =>
    by_cases hji : j = i
    · subst hji
      rw [if_pos rfl]
      exact hi
    · rw [if_neg hji]
  | some n =>
    by_cases hji : j = i
    · subst hji
      rw [if_pos rfl]
      show (nodes.set j { n with children := n.children ++ [c] }).get? j =
        some { n with children := n.children ++ [c] }
      exact kpGetSetSelf _ _ _ (kpGetLt _ _ _ hi)
    · rw [if_neg hji]
      show (nodes.set i { n with children := n.children ++ [c] }).get? j = nodes.get? j
      exact kpGetSetNe _ _ _ _ (fun he => hji he.symm)

theorem markingAt_setTag (nodes : List TreeNode) (i : Nat) (t : String) (j : Nat) :
    markingAt (setTag nodes i t) j = markingAt nodes j := by
  unfold markingAt
  rw [setTag_get?]
  by_cases hji : j = i
  · subst hji
    cases nodes.get? j <;> simp
  · rw [if_neg hji]

theorem markingAt_addChildTo (nodes : List TreeNode) (i c : Nat) (j : Nat) :
    markingAt (addChildTo nodes i c) j = markingAt nodes j := by
  unfold markingAt
  rw [addChildTo_get?]
  by_cases hji : j = i
  · subst hji
    cases nodes.get? j <;> simp
  · rw [if_neg hji]

theorem markingAt_append_lt (nodes : List TreeNode) (x : TreeNode) (j : Nat)
    (h : j < nodes.length) :
    markingAt (nodes ++ [x]) j = markingAt nodes j := by
  unfold markingAt
  rw [kpGetAppendLeft _ _ _ h]

/-- The arena after one child creation, slot by slot. -/
theorem childArena_get? (N : List TreeNode) (cid nid : Nat) (child : TreeNode)
    (hnid : N.length = nid) (j : Nat) :
    (addChildTo N cid nid ++ [child]).get? j =
      if j = nid then some child
      else if j = cid then
        (N.get? cid).map (fun n => { n with children := n.children ++ [nid] })
      else N.get? j := by
  subst hnid
  by_cases hj : j = N.length
  · subst hj
    rw [if_pos rfl]
    have hl : (addChildTo N cid N.length).length = N.length := addChildTo_length _ _ _
    calc (addChildTo N cid N.length ++ [child]).get? N.length
        = (addChildTo N cid N.length ++ [child]).get? (addChildTo N cid N.length).length := by
          rw [hl]
      _ = some child := kpGetAppendLen _ _
  · rw [if_neg hj]
    by_cases hlt : j < N.length
    · rw [kpGetAppendLeft _ _ _ (by rw [addChildTo_length]; exact hlt),
        addChildTo_get?]
    · have hge : N.length < j := by omega
      have h1 : (addChildTo N cid N.length ++ [child]).get? j = none := by
        apply kpGetNoneOfLe
        rw [List.length_append, addChildTo_length]
        simp
        omega
      have h2 : N.get? j = none := kpGetNoneOfLe _ _ (by omega)
      rw [h1]
      by_cases hc : j = cid
      · rw [if_pos hc]
        subst hc
        rw [h2]
        rfl
      · rw [if_neg hc, h2]

theorem childArena_get_nid (N : List TreeNode) (cid nid : Nat) (child : TreeNode)
    (hnid : N.length = nid) :
    (addChildTo N cid nid ++ [child]).get? nid = some child := by
  rw [childArena_get? N cid nid child hnid, if_pos rfl]

theorem childArena_get_other (N : List TreeNode) (cid nid : Nat) (child : TreeNode)
    (hnid : N.length = nid) (j : Nat) (hj1 : j ≠ nid) (hj2 : j ≠ cid) :
    (addChildTo N cid nid ++ [child]).get? j = N.get? j := by
  rw [childArena_get? N cid nid child hnid, if_neg hj1, if_neg hj2]

theorem childArena_get_cid (N : List TreeNode) (cid nid : Nat) (child : TreeNode)
    (hnid : N.length = nid) (hne : cid ≠ nid) :
    (addChildTo N cid nid ++ [child]).get? cid =
      (N.get? cid).map (fun n => { n with children := n.children ++ [nid] }) := by
  rw [childArena_get? N cid nid child hnid, if_neg hne, if_pos rfl]

/-- Case analysis for a successful lookup in the post-child arena. -/
theorem childArena_cases (N : List TreeNode) (cid nid : Nat) (child : TreeNode)
    (hnid : N.length = nid) (j : Nat) (n : TreeNode)
    (h : (addChildTo N cid nid ++ [child]).get? j = some n) :
    (j = nid ∧ n = child) ∨
    (j = cid ∧ j ≠ nid ∧ ∃ nc, N.get? cid = some nc ∧
      n = { nc with children := nc.children ++ [nid] }) ∨
    (j ≠ nid ∧ j ≠ cid ∧ N.get? j = some n) := by
  rw [childArena_get? N cid nid child hnid] at h
  by_cases h1 : j = nid
  · rw [if_pos h1] at h
    exact Or.inl ⟨h1, (Option.some.inj h).symm⟩
  · rw [if_neg h1] at h
    by_cases h2 : j = cid
    · rw [if_pos h2] at h
      cases hgc : N.get? cid with
      | none => rw [hgc] at h; exact absurd h (by simp)
      | some nc =>
        rw [hgc] at h
        exact Or.inr (Or.inl ⟨h2, h1, nc, rfl, (Option.some.inj h).symm⟩)
    · rw [if_neg h2] at h
      exact Or.inr (Or.inr ⟨h1, h2, h⟩)

theorem markingAt_childArena_lt (N : List TreeNode) (cid nid : Nat) (child : TreeNode)
    (hnid : N.length = nid) (j : Nat) (h : j < N.length) :
    markingAt (addChildTo N cid nid ++ [child]) j = markingAt N j := by
  rw [markingAt_append_lt _ _ _ (by rw [addChildTo_length]; exact h),
    markingAt_addChildTo]

/-- Creating one child node (fresh id, tag `new`, enqueued, edge recorded,
the current node's children extended) preserves the mid-expansion
invariant, provided the child's marking has the right length and — if it
contains ω — compares `equal` to the marking of some node on the current
path. -/
theorem child_step_mid (net : PetriNetwork) (cid : Nat) (curM : List MVal)
    (curPath : List Nat) (s : BuildState) (t : String) (mp : List MVal)
    (hMid : Mid net cid curM curPath s)
    (hmplen : mp.length = net.initial_marking.length)
    (homega : MVal.omega ∈ mp → ∃ id ∈ curPath, ∃ am,
      markingAt s.nodes id = some am ∧ codeEqual mp am = true) :
    Mid net cid curM curPath
      { nodes := addChildTo s.nodes cid s.counter ++
          [{ marking := mp, node_id := s.counter, tag := "new", parent := some cid,
             children := [], transition := some t, path_to_root := curPath ++ [s.counter] }],
        edges := s.edges ++ [(cid, s.counter, t)],
        queue := s.queue ++ [s.counter],
        counter := s.counter + 1 } := by
  obtain ⟨cur, hcur, hcurtag, hcurm, hcurp⟩ := hMid.cur_ok
  have hcnt : s.nodes.length = s.counter := hMid.counter_eq.symm
  have hcid_lt : cid < s.nodes.length := kpGetLt _ _ _ hcur
  have hcid_ne : cid ≠ s.counter := by omega
  obtain ⟨child, hchild⟩ : ∃ c : TreeNode, c =
      { marking := mp, node_id := s.counter, tag := "new", parent := some cid,
        children := [], transition := some t, path_to_root := curPath ++ [s.counter] } :=
    ⟨_, rfl⟩
  rw [← hchild]
  have hGnid : (addChildTo s.nodes cid s.counter ++ [child]).get? s.counter = some child :=
    childArena_get_nid _ _ _ _ hcnt
  have hGcid : (addChildTo s.nodes cid s.counter ++ [child]).get? cid =
      some { cur with children := cur.children ++ [s.counter] } := by
    rw [childArena_get_cid _ _ _ _ hcnt hcid_ne, hcur]
    rfl
  have hGother : ∀ j, j ≠ s.counter → j ≠ cid →
      (addChildTo s.nodes cid s.counter ++ [child]).get? j = s.nodes.get? j :=
    fun j h1 h2 => childArena_get_other _ _ _ _ hcnt j h1 h2
  have hCases : ∀ j n, (addChildTo s.nodes cid s.counter ++ [child]).get? j = some n →
      (j = s.counter ∧ n = child) ∨
      (j = cid ∧ j ≠ s.counter ∧ ∃ nc, s.nodes.get? cid = some nc ∧
        n = { nc with children := nc.children ++ [s.counter] }) ∨
      (j ≠ s.counter ∧ j ≠ cid ∧ s.nodes.get? j = some n) :=
    fun j n h => childArena_cases _ _ _ _ hcnt j n h
  have hMarkLt : ∀ j, j < s.nodes.length →
      markingAt (addChildTo s.nodes cid s.counter ++ [child]) j = markingAt s.nodes j :=
    fun j hj => markingAt_childArena_lt _ _ _ _ hcnt j hj
  have hLen2 : (addChildTo s.nodes cid s.counter ++ [child]).length = s.counter + 1 := by
    rw [List.length_append, addChildTo_length]
    simp
    omega
  refine { counter_eq := hLen2.symm, cur_fin := hMid.cur_fin, curM_len := hMid.curM_len,
           ids := ?_, mlen := ?_, path_closed := ?_, omega_anc := ?_, queue_new := ?_,
           new_queued := ?_, queue_nodup := ?_, tags := ?_, leaf := ?_, procMid := ?_,
           cur_ok := ?_, path_len := ?_, path_lt := ?_ }
  · -- ids
    intro i n h
    rcases hCases i n h with ⟨h1, h2⟩ | ⟨h1, h2, nc, hnc, h3⟩ | ⟨h1, h2, h3⟩
    · rw [h1, h2, hchild]
    · rw [h3, h1]
      exact hMid.ids cid nc hnc
    · exact hMid.ids i n h3
  · -- mlen
    intro i n h
    rcases hCases i n h with ⟨h1, h2⟩ | ⟨h1, h2, nc, hnc, h3⟩ | ⟨h1, h2, h3⟩
    · rw [h2, hchild]
      exact hmplen
    · rw [h3]
      exact hMid.mlen cid nc hnc
    · exact hMid.mlen i n h3
  · -- path_closed
    intro i n h id hid
    show id < (addChildTo s.nodes cid s.counter ++ [child]).length
    rw [hLen2]
    rcases hCases i n h with ⟨h1, h2⟩ | ⟨h1, h2, nc, hnc, h3⟩ | ⟨h1, h2, h3⟩
    · have hid2 : id ∈ curPath ++ [s.counter] := by
        rw [h2, hchild] at hid
        exact hid
      rcases kpMemAppendSingleton _ _ _ hid2 with h4 | h4
      · have := hMid.path_lt id h4
        omega
      · omega
    · have hid2 : id ∈ nc.path_to_root := by
        rw [h3] at hid
        exact hid
      have := hMid.path_closed cid nc hnc id hid2
      omega
    · have := hMid.path_closed i n h3 id hid
      omega
  · -- omega_anc
    intro i n h homem
    rcases hCases i n h with ⟨h1, h2⟩ | ⟨h1, h2, nc, hnc, h3⟩ | ⟨h1, h2, h3⟩
    · have homem2 : MVal.omega ∈ mp := by
        rw [h2, hchild] at homem
        exact homem
      obtain ⟨id, hid, am, ham, heq⟩ := homega homem2
      refine ⟨id, ?_, am, ?_, ?_⟩
      · rw [h2, hchild]
        show id ∈ (curPath ++ [s.counter]).dropLast
        rw [List.dropLast_concat]
        exact hid
      · rw [hMarkLt id (hMid.path_lt id hid)]
        exact ham
      · rw [h2, hchild]
        exact heq
    · have homem2 : MVal.omega ∈ nc.marking := by
        rw [h3] at homem
        exact homem
      obtain ⟨id, hid, am, ham, heq⟩ := hMid.omega_anc cid nc hnc homem2
      refine ⟨id, ?_, am, ?_, ?_⟩
      · rw [h3]
        exact hid
      · rw [hMarkLt id (hMid.path_closed cid nc hnc id (List.dropLast_subset _ hid))]
        exact ham
      · rw [h3]
        exact heq
    · obtain ⟨id, hid, am, ham, heq⟩ := hMid.omega_anc i n h3 homem
      refine ⟨id, hid, am, ?_, heq⟩
      rw [hMarkLt id (hMid.path_closed i n h3 id (List.dropLast_subset _ hid))]
      exact ham
  · -- queue_new
    intro id hid
    rcases kpMemAppendSingleton _ _ _ hid with h4 | h4
    · obtain ⟨n, hn, htag, hch⟩ := hMid.queue_new id h4
      have hlt : id < s.nodes.length := kpGetLt _ _ _ hn
      have hne1 : id ≠ s.counter := by omega
      have hne2 : id ≠ cid := by
        intro he
        rw [he] at hn
        have hne := Option.some.inj (hn.symm.trans hcur)
        rw [hne] at htag
        rw [htag] at hcurtag
        exact absurd hcurtag (by decide)
      refine ⟨n, ?_, htag, hch⟩
      rw [hGother id hne1 hne2]
      exact hn
    · rw [h4]
      exact ⟨child, hGnid, by rw [hchild], by rw [hchild]⟩
  · -- new_queued
    intro i n h htag
    rcases hCases i n h with ⟨h1, h2⟩ | ⟨h1, h2, nc, hnc, h3⟩ | ⟨h1, h2, h3⟩
    · rw [h1]
      simp
    · have htag2 : nc.tag = "new" := by
        rw [h3] at htag
        exact htag
      have hnceq : nc = cur := Option.some.inj (hnc.symm.trans hcur)
      rw [hnceq] at htag2
      exact absurd (hcurtag.symm.trans htag2) (by decide)
    · exact List.mem_append_left _ (hMid.new_queued i n h3 htag)
  · -- queue_nodup
    refine kpNodupAppendSingleton _ _ hMid.queue_nodup ?_
    intro hmem
    obtain ⟨n, hn, -, -⟩ := hMid.queue_new _ hmem
    have := kpGetLt _ _ _ hn
    omega
  · -- tags
    intro i n h
    rcases hCases i n h with ⟨h1, h2⟩ | ⟨h1, h2, nc, hnc, h3⟩ | ⟨h1, h2, h3⟩
    · exact Or.inl (by rw [h2, hchild])
    · have hnceq : nc = cur := Option.some.inj (hnc.symm.trans hcur)
      refine Or.inr (Or.inl ?_)
      rw [h3, hnceq]
      exact hcurtag
    · exact hMid.tags i n h3
  · -- leaf
    intro i n h hold
    rcases hCases i n h with ⟨h1, h2⟩ | ⟨h1, h2, nc, hnc, h3⟩ | ⟨h1, h2, h3⟩
    · rw [h2, hchild]
    · have hnceq : nc = cur := Option.some.inj (hnc.symm.trans hcur)
      exfalso
      rcases hold with h4 | h4
      · have h5 : nc.tag = "old" := by
          rw [h3] at h4
          exact h4
        rw [hnceq] at h5
        exact absurd (hcurtag.symm.trans h5) (by decide)
      · have h5 : nc.tag = "dead-end" := by
          rw [h3] at h4
          exact h4
        rw [hnceq] at h5
        exact absurd (hcurtag.symm.trans h5) (by decide)
    · exact hMid.leaf i n h3 hold
  · -- procMid
    intro i n h htag hne
    rcases hCases i n h with ⟨h1, h2⟩ | ⟨h1, h2, nc, hnc, h3⟩ | ⟨h1, h2, h3⟩
    · have htag2 : ("new" : String) = "processed" := by
        rw [h2, hchild] at htag
        exact htag
      exact absurd htag2 (by decide)
    · exact absurd h1 hne
    · exact hMid.procMid i n h3 htag hne
  · -- cur_ok
    exact ⟨{ cur with children := cur.children ++ [s.counter] }, hGcid, hcurtag, hcurm, hcurp⟩
  · -- path_len
    intro id hid a ha
    have hlt : id < s.nodes.length := hMid.path_lt id hid
    have h1 : markingAt s.nodes id = some a.marking := by
      rw [← hMarkLt id hlt]
      simp only [markingAt, ha, Option.map]
    cases hb : s.nodes.get? id with
    | none => rw [markingAt, hb] at h1; exact absurd h1 (by simp)
    | some b =>
      simp only [markingAt, hb, Option.map] at h1
      have hba := Option.some.inj h1
      rw [← hba]
      exact hMid.path_len id hid b hb
  · -- path_lt
    intro id hid
    show id < (addChildTo s.nodes cid s.counter ++ [child]).length
    rw [hLen2]
    have := hMid.path_lt id hid
    omega

/-- The child-creation loop: it never raises the disabled-transition error,
it agrees step by step with the spec's walk, and it preserves the
mid-expansion invariant while extending the current node's children by one
per enabled transition. -/
theorem addChildren_main (net : PetriNetwork) (cid : Nat) (curM : List MVal)
    (curPath : List Nat) :
    ∀ (ts : List String) (s : BuildState),
      Mid net cid curM curPath s →
      (∀ t ∈ ts, is_enabled net t curM = .ok true) →
      (∀ t2, addChildren net cid curM curPath ts s ≠ .error (.disabledTransition t2)) ∧
      (addChildren net cid curM curPath ts s = addChildrenSpec net cid curM curPath ts s) ∧
      (∀ s2, addChildren net cid curM curPath ts s = .ok s2 →
        Mid net cid curM curPath s2 ∧
        ∀ cur2, s2.nodes.get? cid = some cur2 →
          ∃ cur, s.nodes.get? cid = some cur ∧
            cur2.children.length = cur.children.length + ts.length) := by
  intro ts
  induction ts with
  | nil =>
    intro s hMid _
    refine ⟨?_, rfl, ?_⟩
    · intro t2 h
      simp only [addChildren] at h
      exact absurd h (by simp)
    · intro s2 h
      simp only [addChildren] at h
      cases h
      exact ⟨hMid, fun cur2 hc2 => ⟨cur2, hc2, by simp⟩⟩
  | cons t ts ih =>
    intro s hMid hts
    have hsub : substMarking curM = curM := substMarking_id curM hMid.cur_fin
    have hent : is_enabled net t curM = .ok true := hts t (List.mem_cons_self _ _)
    have hL := hMid.curM_len
    cases hf : fire_transition net t curM with
    | error e =>
      have hA : addChildren net cid curM curPath (t :: ts) s = .error e := by
        simp only [addChildren, hsub, hf, kpBindError]
      have hB : addChildrenSpec net cid curM curPath (t :: ts) s = .error e := by
        simp only [addChildrenSpec, hsub, hf, kpBindError]
      refine ⟨?_, by rw [hA, hB], ?_⟩
      · intro t2 h
        rw [hA] at h
        have he : e = .disabledTransition t2 := Except.error.inj h
        rcases fire_transition_err_of_enabled net t curM e hent hf with h3 | h3 <;>
        · rw [h3] at he
          simp at he
      · intro s2 h
        rw [hA] at h
        exact absurd h (by simp)
    | ok fired =>
      have hflen : fired.length = curM.length := fire_transition_length net t curM fired hf
      have hffin : MVal.omega ∉ fired :=
        fire_transition_no_omega net t curM fired hMid.cur_fin hf
      have hrest : restoreOmega curM fired = fired :=
        restoreOmega_id curM fired hMid.cur_fin hflen.symm
      have hancfacts : ∀ id ∈ curPath, ∀ a, s.nodes.get? id = some a →
          a.marking.length = fired.length := by
        intro id hid a ha
        rw [hMid.path_len id hid a ha, hflen, hL]
      have hwalkeq : accelWalk s.nodes fired curPath = specWalk s.nodes fired curPath :=
        accelWalk_eq_specWalk s.nodes fired hffin curPath hancfacts
      cases hw : accelWalk s.nodes fired curPath with
      | error e =>
        have heidx : e = .indexError := accelWalk_err s.nodes fired curPath e hw
        have hA : addChildren net cid curM curPath (t :: ts) s = .error e := by
          simp only [addChildren, hsub, hf, kpBindOk, hrest, hw, kpBindError]
        have hB : addChildrenSpec net cid curM curPath (t :: ts) s = .error e := by
          simp only [addChildrenSpec, hsub, hf, kpBindOk, hrest, ← hwalkeq, hw, kpBindError]
        refine ⟨?_, by rw [hA, hB], ?_⟩
        · intro t2 h
          rw [hA] at h
          have he : e = .disabledTransition t2 := Except.error.inj h
          rw [heidx] at he
          simp at he
        · intro s2 h
          rw [hA] at h
          exact absurd h (by simp)
      | ok mp =>
        have hmplen : mp.length = net.initial_marking.length := by
          rcases accelWalk_cases s.nodes fired curPath mp hw with hmp |
            ⟨id, hid, a, ha, g, hcg, hap⟩
          · rw [hmp, hflen, hL]
          · rw [applyOmegaGo_length fired a.marking mp hap, hflen, hL]
        have homega : MVal.omega ∈ mp → ∃ id ∈ curPath, ∃ am,
            markingAt s.nodes id = some am ∧ codeEqual mp am = true := by
          intro homp
          rcases accelWalk_cases s.nodes fired curPath mp hw with hmp |
            ⟨id, hid, a, ha, g, hcg, hap⟩
          · rw [hmp] at homp
            exact absurd homp hffin
          · have halen : a.marking.length = fired.length := hancfacts id hid a ha
            have hcmp := compare_markings_eq fired a.marking (le_of_eq halen.symm)
            rw [hcmp] at hcg
            simp only [Except.ok.injEq, Prod.mk.injEq] at hcg
            obtain ⟨hcov, hceq, -⟩ := hcg
            have hmpacc : mp = accelerateSpec fired a.marking :=
              Except.ok.inj (hap.symm.trans
                (apply_omega_eq fired a.marking (le_of_eq halen.symm)))
            refine ⟨id, hid, a.marking, ?_, ?_⟩
            · simp only [markingAt, ha, Option.map]
            · rw [hmpacc]
              exact codeEqual_accelerate fired a.marking hffin halen.symm hcov
        have hMid2 := child_step_mid net cid curM curPath s t mp hMid hmplen homega
        have hA : addChildren net cid curM curPath (t :: ts) s =
            addChildren net cid curM curPath ts
              { nodes := addChildTo s.nodes cid s.counter ++
                  [{ marking := mp, node_id := s.counter, tag := "new", parent := some cid,
                     children := [], transition := some t,
                     path_to_root := curPath ++ [s.counter] }],
                edges := s.edges ++ [(cid, s.counter, t)],
                queue := s.queue ++ [s.counter],
                counter := s.counter + 1 } := by
          simp only [addChildren, hsub, hf, kpBindOk, hrest, hw]
        have hB : addChildrenSpec net cid curM curPath (t :: ts) s =
            addChildrenSpec net cid curM curPath ts
              { nodes := addChildTo s.nodes cid s.counter ++
                  [{ marking := mp, node_id := s.counter, tag := "new", parent := some cid,
                     children := [], transition := some t,
                     path_to_root := curPath ++ [s.counter] }],
                edges := s.edges ++ [(cid, s.counter, t)],
                queue := s.queue ++ [s.counter],
                counter := s.counter + 1 } := by
          simp only [addChildrenSpec, hsub, hf, kpBindOk, hrest, ← hwalkeq, hw]
        obtain ⟨ihnd, iheq, ihok⟩ :=
          ih _ hMid2 (fun t2 ht2 => hts t2 (List.mem_cons_of_mem _ ht2))
        refine ⟨?_, ?_, ?_⟩
        · intro t2 h
          rw [hA] at h
          exact ihnd t2 h
        · rw [hA, hB]
          exact iheq
        · intro s2 h
          rw [hA] at h
          obtain ⟨hm2, hcount⟩ := ihok s2 h
          refine ⟨hm2, ?_⟩
          intro cur2 hc2
          obtain ⟨curMid, hcurMid, hlen2⟩ := hcount cur2 hc2
          obtain ⟨cur, hcur, hcurtag, -, -⟩ := hMid.cur_ok
          have hcnt : s.nodes.length = s.counter := hMid.counter_eq.symm
          have hcid_lt : cid < s.nodes.length := kpGetLt _ _ _ hcur
          have hget2 : (addChildTo s.nodes cid s.counter ++
              [({ marking := mp, node_id := s.counter, tag := "new", parent := some cid,
                  children := [], transition := some t,
                  path_to_root := curPath ++ [s.counter] } : TreeNode)]).get? cid =
              some { cur with children := cur.children ++ [s.counter] } := by
            rw [childArena_get_cid _ _ _ _ hcnt (by omega), hcur]
            rfl
          have hcm : curMid = { cur with children := cur.children ++ [s.counter] } :=
            Option.some.inj (hcurMid.symm.trans hget2)
          refine ⟨cur, hcur, ?_⟩
          rw [hlen2, hcm]
          simp
          omega

/-- Composing the two in-place tag writes of one loop iteration. -/
theorem setTag_twice_get? (N : List TreeNode) (cid : Nat) (t1 t2 : String) (j : Nat) :
    (setTag (setTag N cid t1) cid t2).get? j =
      if j = cid then (N.get? cid).map (fun n => { n with tag := t2 })
      else N.get? j := by
  by_cases hj : j = cid
  · rw [if_pos hj, setTag_get?, if_pos hj, setTag_get?, if_pos rfl]
    cases N.get? cid <;> rfl
  · rw [if_neg hj, setTag_get?, if_neg hj, setTag_get?, if_neg hj]

/-- One full iteration of the builder loop on the dequeued node `cid`: it
never raises the disabled-transition error, it agrees with the variant
using the spec's step 5b walk, and it preserves the loop invariant. -/
theorem processNode_main (net : PetriNetwork) (st0 : BuildState) (cid : Nat)
    (rest : List Nat) (hq : st0.queue = cid :: rest) (hInv : Inv net st0) :
    (∀ t2, processNode net { st0 with queue := rest } cid ≠
      .error (.disabledTransition t2)) ∧
    (processNode net { st0 with queue := rest } cid =
      processNodeSpec net { st0 with queue := rest } cid) ∧
    (∀ st1, processNode net { st0 with queue := rest } cid = .ok st1 → Inv net st1) := by
  have hcid_q : cid ∈ st0.queue := by
    rw [hq]
    exact List.mem_cons_self _ _
  obtain ⟨cur0, hcur0, hctag, hcch⟩ := hInv.queue_new cid hcid_q
  have hcid_lt : cid < st0.nodes.length := kpGetLt _ _ _ hcur0
  have hnodup : (cid :: rest).Nodup := by
    rw [← hq]
    exact hInv.queue_nodup
  have hcid_rest : cid ∉ rest := (List.nodup_cons.mp hnodup).1
  have hrest_nodup : rest.Nodup := (List.nodup_cons.mp hnodup).2
  have hL0 : cur0.marking.length = net.initial_marking.length := hInv.mlen cid cur0 hcur0
  -- the arena after the `processed` write
  have hG1cid : (setTag st0.nodes cid "processed").get? cid =
      some { cur0 with tag := "processed" } := by
    rw [setTag_get?, if_pos rfl, hcur0]
    rfl
  have hC1 : ∀ j n, (setTag st0.nodes cid "processed").get? j = some n →
      (j = cid ∧ n = { cur0 with tag := "processed" }) ∨
      (j ≠ cid ∧ st0.nodes.get? j = some n) := by
    intro j n h
    rw [setTag_get?] at h
    by_cases hj : j = cid
    · rw [if_pos hj, hcur0] at h
      simp only [Option.map] at h
      exact Or.inl ⟨hj, (Option.some.inj h).symm⟩
    · rw [if_neg hj] at h
      exact Or.inr ⟨hj, h⟩
  cases hfe : findEqualAnc (setTag st0.nodes cid "processed") cur0.marking
      cur0.path_to_root.dropLast with
  | error e =>
    have hA : processNode net { st0 with queue := rest } cid = .error e := by
      simp only [processNode, hcur0, hfe, kpBindError]
    have hB : processNodeSpec net { st0 with queue := rest } cid = .error e := by
      simp only [processNodeSpec, hcur0, hfe, kpBindError]
    refine ⟨?_, by rw [hA, hB], ?_⟩
    · intro t2 h
      rw [hA] at h
      have he : e = .disabledTransition t2 := Except.error.inj h
      rw [findEqualAnc_err _ _ _ _ hfe] at he
      simp at he
    · intro st1 h
      rw [hA] at h
      exact absurd h (by simp)
  | ok isOld =>
    cases isOld with
    | true =>
      have hA : processNode net { st0 with queue := rest } cid =
          .ok { nodes := setTag (setTag st0.nodes cid "processed") cid "old",
                edges := st0.edges, queue := rest, counter := st0.counter } := by
        simp only [processNode, hcur0, hfe, kpBindOk]
        rw [if_pos trivial]
      have hB : processNodeSpec net { st0 with queue := rest } cid =
          .ok { nodes := setTag (setTag st0.nodes cid "processed") cid "old",
                edges := st0.edges, queue := rest, counter := st0.counter } := by
        simp only [processNodeSpec, hcur0, hfe, kpBindOk]
        rw [if_pos trivial]
      have hC2 : ∀ j n,
          (setTag (setTag st0.nodes cid "processed") cid "old").get? j = some n →
          (j = cid ∧ n = { cur0 with tag := "old" }) ∨
          (j ≠ cid ∧ st0.nodes.get? j = some n) := by
        intro j n h
        rw [setTag_twice_get?] at h
        by_cases hj : j = cid
        · rw [if_pos hj, hcur0] at h
          simp only [Option.map] at h
          exact Or.inl ⟨hj, (Option.some.inj h).symm⟩
        · rw [if_neg hj] at h
          exact Or.inr ⟨hj, h⟩
      have hLen : (setTag (setTag st0.nodes cid "processed") cid "old").length =
          st0.nodes.length := by
        rw [setTag_length, setTag_length]
      have hMark : ∀ j,
          markingAt (setTag (setTag st0.nodes cid "processed") cid "old") j =
            markingAt st0.nodes j := by
        intro j
        rw [markingAt_setTag, markingAt_setTag]
      refine ⟨?_, by rw [hA, hB], ?_⟩
      · intro t2 h
        rw [hA] at h
        exact absurd h (by simp)
      · intro st1 h
        rw [hA] at h
        cases h
        refine { counter_eq := ?_, ids := ?_, mlen := ?_, path_closed := ?_,
                 omega_anc := ?_, queue_new := ?_, new_queued := ?_, queue_nodup := ?_,
                 tags := ?_, leaf := ?_, proc := ?_ }
        · rw [hLen]
          exact hInv.counter_eq
        · intro i n h
          rcases hC2 i n h with ⟨h1, h2⟩ | ⟨h1, h2⟩
          · rw [h2, h1]
            exact hInv.ids cid cur0 hcur0
          · exact hInv.ids i n h2
        · intro i n h
          rcases hC2 i n h with ⟨h1, h2⟩ | ⟨h1, h2⟩
          · rw [h2]
            exact hInv.mlen cid cur0 hcur0
          · exact hInv.mlen i n h2
        · intro i n h id hid
          show id < (setTag (setTag st0.nodes cid "processed") cid "old").length
          rw [hLen]
          rcases hC2 i n h with ⟨h1, h2⟩ | ⟨h1, h2⟩
          · refine hInv.path_closed cid cur0 hcur0 id ?_
            rw [h2] at hid
            exact hid
          · exact hInv.path_closed i n h2 id hid
        · intro i n h homem
          rcases hC2 i n h with ⟨h1, h2⟩ | ⟨h1, h2⟩
          · have homem2 : MVal.omega ∈ cur0.marking := by
              rw [h2] at homem
              exact homem
            obtain ⟨id, hid, am, ham, heq⟩ := hInv.omega_anc cid cur0 hcur0 homem2
            refine ⟨id, ?_, am, ?_, ?_⟩
            · rw [h2]
              exact hid
            · rw [hMark]
              exact ham
            · rw [h2]
              exact heq
          · obtain ⟨id, hid, am, ham, heq⟩ := hInv.omega_anc i n h2 homem
            refine ⟨id, hid, am, ?_, heq⟩
            rw [hMark]
            exact ham
        · intro id hid
          have hidq : id ∈ st0.queue := by
            rw [hq]
            exact List.mem_cons_of_mem _ hid
          obtain ⟨n, hn, htag, hch⟩ := hInv.queue_new id hidq
          have hne : id ≠ cid := fun he => hcid_rest (he ▸ hid)
          refine ⟨n, ?_, htag, hch⟩
          rw [setTag_twice_get?, if_neg hne]
          exact hn
        · intro i n h htag
          rcases hC2 i n h with ⟨h1, h2⟩ | ⟨h1, h2⟩
          · have htag2 : ("old" : String) = "new" := by
              rw [h2] at htag
              exact htag
            exact absurd htag2 (by decide)
          · have := hInv.new_queued i n h2 htag
            rw [hq] at this
            rcases List.mem_cons.mp this with h3 | h3
            · exact absurd h3 h1
            · exact h3
        · exact hrest_nodup
        · intro i n h
          rcases hC2 i n h with ⟨h1, h2⟩ | ⟨h1, h2⟩
          · refine Or.inr (Or.inr (Or.inl ?_))
            rw [h2]
          · exact hInv.tags i n h2
        · intro i n h hold
          rcases hC2 i n h with ⟨h1, h2⟩ | ⟨h1, h2⟩
          · rw [h2]
            exact hcch
          · exact hInv.leaf i n h2 hold
        · intro i n h htag
          rcases hC2 i n h with ⟨h1, h2⟩ | ⟨h1, h2⟩
          · have htag2 : ("old" : String) = "processed" := by
              rw [h2] at htag
              exact htag
            exact absurd htag2 (by decide)
          · exact hInv.proc i n h2 htag
    | false =>
      -- the node survives the old-check, so its marking is ω-free
      have hfin : MVal.omega ∉ cur0.marking := by
        intro hom
        obtain ⟨id, hid, am, ham, heq⟩ := hInv.omega_anc cid cur0 hcur0 hom
        have h1 : markingAt (setTag st0.nodes cid "processed") id = some am := by
          rw [markingAt_setTag]
          exact ham
        cases hb1 : (setTag st0.nodes cid "processed").get? id with
        | none =>
          rw [markingAt, hb1] at h1
          exact absurd h1 (by simp)
        | some b1 =>
          have hb1m : b1.marking = am := by
            simp only [markingAt, hb1, Option.map] at h1
            exact Option.some.inj h1
          obtain ⟨c, g, hcmp⟩ := findEqualAnc_false _ _ _ hfe id hid b1 hb1
          have hamlen : am.length = net.initial_marking.length := by
            rcases hC1 id b1 hb1 with ⟨h2, h3⟩ | ⟨h2, h3⟩
            · rw [← hb1m, h3]
              exact hInv.mlen cid cur0 hcur0
            · rw [← hb1m]
              exact hInv.mlen id b1 h3
          have hlen : cur0.marking.length ≤ b1.marking.length := by
            rw [hb1m, hamlen, hL0]
          have hcmp2 := compare_markings_eq cur0.marking b1.marking hlen
          rw [hcmp2] at hcmp
          simp only [Except.ok.injEq, Prod.mk.injEq] at hcmp
          obtain ⟨-, hceqf, -⟩ := hcmp
          rw [hb1m] at hceqf
          have : (true : Bool) = false := heq.symm.trans hceqf
          simp at this
      cases henb : get_enabled_transitions net cur0.marking with
      | error e =>
        have hA : processNode net { st0 with queue := rest } cid = .error e := by
          simp only [processNode, hcur0, hfe, kpBindOk, henb, kpBindError]
          rw [if_neg (by simp)]
        have hB : processNodeSpec net { st0 with queue := rest } cid = .error e := by
          simp only [processNodeSpec, hcur0, hfe, kpBindOk, henb, kpBindError]
          rw [if_neg (by simp)]
        refine ⟨?_, by rw [hA, hB], ?_⟩
        · intro t2 h
          rw [hA] at h
          have he : e = .disabledTransition t2 := Except.error.inj h
          rcases enabledFilter_err net cur0.marking net.transitions e henb with h3 | h3 <;>
          · rw [h3] at he
            simp at he
        · intro st1 h
          rw [hA] at h
          exact absurd h (by simp)
      | ok enabled =>
        have hts : ∀ t ∈ enabled, is_enabled net t cur0.marking = .ok true :=
          enabledFilter_mem net cur0.marking net.transitions enabled henb
        -- the mid-expansion invariant of the tagged state
        have hMid1 : Mid net cid cur0.marking cur0.path_to_root
            { nodes := setTag st0.nodes cid "processed", edges := st0.edges,
              queue := rest, counter := st0.counter } := by
          refine { counter_eq := ?_, ids := ?_, mlen := ?_, path_closed := ?_,
                   omega_anc := ?_, queue_new := ?_, new_queued := ?_,
                   queue_nodup := hrest_nodup, tags := ?_, leaf := ?_, procMid := ?_,
                   cur_ok := ?_, cur_fin := hfin, curM_len := hL0,
                   path_len := ?_, path_lt := ?_ }
          · rw [setTag_length]
            exact hInv.counter_eq
          · intro i n h
            rcases hC1 i n h with ⟨h1, h2⟩ | ⟨h1, h2⟩
            · rw [h2, h1]
              exact hInv.ids cid cur0 hcur0
            · exact hInv.ids i n h2
          · intro i n h
            rcases hC1 i n h with ⟨h1, h2⟩ | ⟨h1, h2⟩
            · rw [h2]
              exact hInv.mlen cid cur0 hcur0
            · exact hInv.mlen i n h2
          · intro i n h id hid
            show id < (setTag st0.nodes cid "processed").length
            rw [setTag_length]
            rcases hC1 i n h with ⟨h1, h2⟩ | ⟨h1, h2⟩
            · refine hInv.path_closed cid cur0 hcur0 id ?_
              rw [h2] at hid
              exact hid
            · exact hInv.path_closed i n h2 id hid
          · intro i n h homem
            rcases hC1 i n h with ⟨h1, h2⟩ | ⟨h1, h2⟩
            · have homem2 : MVal.omega ∈ cur0.marking := by
                rw [h2] at homem
                exact homem
              exact absurd homem2 hfin
            · obtain ⟨id, hid, am, ham, heq⟩ := hInv.omega_anc i n h2 homem
              refine ⟨id, hid, am, ?_, heq⟩
              rw [markingAt_setTag]
              exact ham
          · intro id hid
            have hidq : id ∈ st0.queue := by
              rw [hq]
              exact List.mem_cons_of_mem _ hid
            obtain ⟨n, hn, htag, hch⟩ := hInv.queue_new id hidq
            have hne : id ≠ cid := fun he => hcid_rest (he ▸ hid)
            refine ⟨n, ?_, htag, hch⟩
            rw [setTag_get?, if_neg hne]
            exact hn
          · intro i n h htag
            rcases hC1 i n h with ⟨h1, h2⟩ | ⟨h1, h2⟩
            · have htag2 : ("processed" : String) = "new" := by
                rw [h2] at htag
                exact htag
              exact absurd htag2 (by decide)
            · have := hInv.new_queued i n h2 htag
              rw [hq] at this
              rcases List.mem_cons.mp this with h3 | h3
              · exact absurd h3 h1
              · exact h3
          · intro i n h
            rcases hC1 i n h with ⟨h1, h2⟩ | ⟨h1, h2⟩
            · refine Or.inr (Or.inl ?_)
              rw [h2]
            · exact hInv.tags i n h2
          · intro i n h hold
            rcases hC1 i n h with ⟨h1, h2⟩ | ⟨h1, h2⟩
            · exfalso
              rcases hold with h4 | h4
              · have h5 : ("processed" : String) = "old" := by
                  rw [h2] at h4
                  exact h4
                exact absurd h5 (by decide)
              · have h5 : ("processed" : String) = "dead-end" := by
                  rw [h2] at h4
                  exact h4
                exact absurd h5 (by decide)
            · exact hInv.leaf i n h2 hold
          · intro i n h htag hne
            rcases hC1 i n h with ⟨h1, h2⟩ | ⟨h1, h2⟩
            · exact absurd h1 hne
            · exact hInv.proc i n h2 htag
          · exact ⟨{ cur0 with tag := "processed" }, hG1cid, rfl, rfl, rfl⟩
          · intro id hid a ha
            rcases hC1 id a ha with ⟨h1, h2⟩ | ⟨h1, h2⟩
            · rw [h2]
              exact hInv.mlen cid cur0 hcur0
            · exact hInv.mlen id a h2
          · intro id hid
            show id < (setTag st0.nodes cid "processed").length
            rw [setTag_length]
            exact hInv.path_closed cid cur0 hcur0 id hid
        by_cases henil : enabled = []
        · have hA : processNode net { st0 with queue := rest } cid =
              .ok { nodes := setTag (setTag st0.nodes cid "processed") cid "dead-end",
                    edges := st0.edges, queue := rest, counter := st0.counter } := by
            simp only [processNode, hcur0, hfe, kpBindOk, henb]
            rw [if_neg (by simp), if_pos henil]
          have hB : processNodeSpec net { st0 with queue := rest } cid =
              .ok { nodes := setTag (setTag st0.nodes cid "processed") cid "dead-end",
                    edges := st0.edges, queue := rest, counter := st0.counter } := by
            simp only [processNodeSpec, hcur0, hfe, kpBindOk, henb]
            rw [if_neg (by simp), if_pos henil]
          have hC2 : ∀ j n,
              (setTag (setTag st0.nodes cid "processed") cid "dead-end").get? j = some n →
              (j = cid ∧ n = { cur0 with tag := "dead-end" }) ∨
              (j ≠ cid ∧ st0.nodes.get? j = some n) := by
            intro j n h
            rw [setTag_twice_get?] at h
            by_cases hj : j = cid
            · rw [if_pos hj, hcur0] at h
              simp only [Option.map] at h
              exact Or.inl ⟨hj, (Option.some.inj h).symm⟩
            · rw [if_neg hj] at h
              exact Or.inr ⟨hj, h⟩
          refine ⟨?_, by rw [hA, hB], ?_⟩
          · intro t2 h
            rw [hA] at h
            exact absurd h (by simp)
          · intro st1 h
            rw [hA] at h
            cases h
            refine { counter_eq := ?_, ids := ?_, mlen := ?_, path_closed := ?_,
                     omega_anc := ?_, queue_new := ?_, new_queued := ?_,
                     queue_nodup := hrest_nodup, tags := ?_, leaf := ?_, proc := ?_ }
            · rw [setTag_length, setTag_length]
              exact hInv.counter_eq
            · intro i n h
              rcases hC2 i n h with ⟨h1, h2⟩ | ⟨h1, h2⟩
              · rw [h2, h1]
                exact hInv.ids cid cur0 hcur0
              · exact hInv.ids i n h2
            · intro i n h
              rcases hC2 i n h with ⟨h1, h2⟩ | ⟨h1, h2⟩
              · rw [h2]
                exact hInv.mlen cid cur0 hcur0
              · exact hInv.mlen i n h2
            · intro i n h id hid
              show id < (setTag (setTag st0.nodes cid "processed") cid "dead-end").length
              rw [setTag_length, setTag_length]
              rcases hC2 i n h with ⟨h1, h2⟩ | ⟨h1, h2⟩
              · refine hInv.path_closed cid cur0 hcur0 id ?_
                rw [h2] at hid
                exact hid
              · exact hInv.path_closed i n h2 id hid
            · intro i n h homem
              rcases hC2 i n h with ⟨h1, h2⟩ | ⟨h1, h2⟩
              · have homem2 : MVal.omega ∈ cur0.marking := by
                  rw [h2] at homem
                  exact homem
                exact absurd homem2 hfin
              · obtain ⟨id, hid, am, ham, heq⟩ := hInv.omega_anc i n h2 homem
                refine ⟨id, hid, am, ?_, heq⟩
                rw [markingAt_setTag, markingAt_setTag]
                exact ham
            · intro id hid
              have hidq : id ∈ st0.queue := by
                rw [hq]
                exact List.mem_cons_of_mem _ hid
              obtain ⟨n, hn, htag, hch⟩ := hInv.queue_new id hidq
              have hne : id ≠ cid := fun he => hcid_rest (he ▸ hid)
              refine ⟨n, ?_, htag, hch⟩
              rw [setTag_twice_get?, if_neg hne]
              exact hn
            · intro i n h htag
              rcases hC2 i n h with ⟨h1, h2⟩ | ⟨h1, h2⟩
              · have htag2 : ("dead-end" : String) = "new" := by
                  rw [h2] at htag
                  exact htag
                exact absurd htag2 (by decide)
              · have := hInv.new_queued i n h2 htag
                rw [hq] at this
                rcases List.mem_cons.mp this with h3 | h3
                · exact absurd h3 h1
                · exact h3
            · intro i n h
              rcases hC2 i n h with ⟨h1, h2⟩ | ⟨h1, h2⟩
              · refine Or.inr (Or.inr (Or.inr ?_))
                rw [h2]
              · exact hInv.tags i n h2
            · intro i n h hold
              rcases hC2 i n h with ⟨h1, h2⟩ | ⟨h1, h2⟩
              · rw [h2]
                exact hcch
              · exact hInv.leaf i n h2 hold
            · intro i n h htag
              rcases hC2 i n h with ⟨h1, h2⟩ | ⟨h1, h2⟩
              · have htag2 : ("dead-end" : String) = "processed" := by
                  rw [h2] at htag
                  exact htag
                exact absurd htag2 (by decide)
              · exact hInv.proc i n h2 htag
        · have hA : processNode net { st0 with queue := rest } cid =
              addChildren net cid cur0.marking cur0.path_to_root enabled
                { nodes := setTag st0.nodes cid "processed", edges := st0.edges,
                  queue := rest, counter := st0.counter } := by
            simp only [processNode, hcur0, hfe, kpBindOk, henb]
            rw [if_neg (by simp), if_neg henil]
          have hB : processNodeSpec net { st0 with queue := rest } cid =
              addChildrenSpec net cid cur0.marking cur0.path_to_root enabled
                { nodes := setTag st0.nodes cid "processed", edges := st0.edges,
                  queue := rest, counter := st0.counter } := by
            simp only [processNodeSpec, hcur0, hfe, kpBindOk, henb]
            rw [if_neg (by simp), if_neg henil]
          obtain ⟨hnd, heqspec, hok⟩ :=
            addChildren_main net cid cur0.marking cur0.path_to_root enabled _ hMid1 hts
          refine ⟨?_, ?_, ?_⟩
          · intro t2 h
            rw [hA] at h
            exact hnd t2 h
          · rw [hA, hB]
            exact heqspec
          · intro st1 h
            rw [hA] at h
            obtain ⟨hm2, hcount⟩ := hok st1 h
            -- final invariant: all Mid fields plus the children count at cid
            refine { counter_eq := hm2.counter_eq, ids := hm2.ids, mlen := hm2.mlen,
                     path_closed := hm2.path_closed, omega_anc := hm2.omega_anc,
                     queue_new := hm2.queue_new, new_queued := hm2.new_queued,
                     queue_nodup := hm2.queue_nodup, tags := hm2.tags,
                     leaf := hm2.leaf, proc := ?_ }
            intro i n h2 htag
            by_cases hic : i = cid
            · obtain ⟨curF, hcurF, hlenF⟩ := hcount n (hic ▸ h2)
              have hcurF2 : curF = { cur0 with tag := "processed" } :=
                Option.some.inj (hcurF.symm.trans hG1cid)
              intro hnil
              have hpos : 0 < enabled.length := List.length_pos.mpr henil
              rw [hnil, hcurF2] at hlenF
              have hch0 : cur0.children.length = 0 := by
                rw [hcch]
                rfl
              have hlen0 : ({ cur0 with tag := "processed" } : TreeNode).children.length =
                  cur0.children.length := rfl
              rw [hlen0, hch0] at hlenF
              simp at hlenF
              omega
            · exact hm2.procMid i n h2 htag hic

/-- The initial builder state (the root node alone, enqueued) satisfies the
loop invariant. -/
theorem inv_init (net : PetriNetwork) : Inv net (initState net) := by
  have hget : ∀ i n, (initState net).nodes.get? i = some n → i = 0 ∧ n =
      { marking := net.initial_marking.map MVal.fin, node_id := 0, tag := "new",
        parent := none, children := [], transition := none, path_to_root := [0] } := by
    intro i n h
    cases i with
    | zero =>
      refine ⟨rfl, ?_⟩
      simp only [initState, List.get?] at h
      exact (Option.some.inj h).symm
    | succ k =>
      simp only [initState, List.get?] at h
      exact absurd h (by simp)
  refine { counter_eq := rfl, ids := ?_, mlen := ?_, path_closed := ?_, omega_anc := ?_,
           queue_new := ?_, new_queued := ?_, queue_nodup := by simp [initState],
           tags := ?_, leaf := ?_, proc := ?_ }
  · intro i n h
    obtain ⟨h1, h2⟩ := hget i n h
    rw [h2, h1]
  · intro i n h
    obtain ⟨h1, h2⟩ := hget i n h
    rw [h2]
    simp
  · intro i n h id hid
    obtain ⟨h1, h2⟩ := hget i n h
    rw [h2] at hid
    simp only [List.mem_singleton] at hid
    rw [hid]
    simp [initState]
  · intro i n h homem
    obtain ⟨h1, h2⟩ := hget i n h
    rw [h2] at homem
    simp at homem
  · intro id hid
    simp only [initState, List.mem_singleton] at hid
    rw [hid]
    exact ⟨_, rfl, rfl, rfl⟩
  · intro i n h htag
    obtain ⟨h1, h2⟩ := hget i n h
    rw [h1]
    simp [initState]
  · intro i n h
    obtain ⟨h1, h2⟩ := hget i n h
    rw [h2]
    exact Or.inl rfl
  · intro i n h hold
    obtain ⟨h1, h2⟩ := hget i n h
    rw [h2] at hold
    rcases hold with h4 | h4
    · exact absurd (show ("new" : String) = "old" from h4) (by decide)
    · exact absurd (show ("new" : String) = "dead-end" from h4) (by decide)
  · intro i n h htag
    obtain ⟨h1, h2⟩ := hget i n h
    rw [h2] at htag
    exact absurd (show ("new" : String) = "processed" from htag) (by decide)

/-- The fueled loop: never raises the disabled-transition error, agrees
with the spec-walk variant, and on termination yields an invariant state
with an empty queue. -/
theorem buildLoop_main (net : PetriNetwork) :
    ∀ (fuel : Nat) (st : BuildState), Inv net st →
      (∀ t2, buildLoop net fuel st ≠ .error (.disabledTransition t2)) ∧
      (buildLoop net fuel st = buildLoopSpec net fuel st) ∧
      (∀ st1, buildLoop net fuel st = .ok (some st1) → Inv net st1 ∧ st1.queue = []) := by
  intro fuel
  induction fuel with
  | zero =>
    intro st hInv
    refine ⟨?_, rfl, ?_⟩
    · intro t2 h
      simp only [buildLoop] at h
      exact absurd h (by simp)
    · intro st1 h
      simp only [buildLoop] at h
      exact absurd h (by simp)
  | succ fuel ih =>
    intro st hInv
    cases hq : st.queue with
    | nil =>
      have hA : buildLoop net (fuel + 1) st = .ok (some st) := by
        simp only [buildLoop, hq]
      have hB : buildLoopSpec net (fuel + 1) st = .ok (some st) := by
        simp only [buildLoopSpec, hq]
      refine ⟨?_, by rw [hA, hB], ?_⟩
      · intro t2 h
        rw [hA] at h
        exact absurd h (by simp)
      · intro st1 h
        rw [hA] at h
        have h2 := Option.some.inj (Except.ok.inj h)
        rw [← h2]
        exact ⟨hInv, hq⟩
    | cons cid rest =>
      obtain ⟨hnd, heq, hok⟩ := processNode_main net st cid rest hq hInv
      cases hp : processNode net { st with queue := rest } cid with
      | error e =>
        have hA : buildLoop net (fuel + 1) st = .error e := by
          simp only [buildLoop, hq, hp, kpBindError]
        have hB : buildLoopSpec net (fuel + 1) st = .error e := by
          simp only [buildLoopSpec, hq, ← heq, hp, kpBindError]
        refine ⟨?_, by rw [hA, hB], ?_⟩
        · intro t2 h
          rw [hA] at h
          have he : e = .disabledTransition t2 := Except.error.inj h
          exact hnd t2 (by rw [hp, he])
        · intro st1 h
          rw [hA] at h
          exact absurd h (by simp)
      | ok st2 =>
        have hInv2 := hok st2 hp
        obtain ⟨ihnd, iheq, ihok⟩ := ih st2 hInv2
        have hA : buildLoop net (fuel + 1) st = buildLoop net fuel st2 := by
          simp only [buildLoop, hq, hp, kpBindOk]
        have hB : buildLoopSpec net (fuel + 1) st = buildLoopSpec net fuel st2 := by
          simp only [buildLoopSpec, hq, ← heq, hp, kpBindOk]
        refine ⟨?_, ?_, ?_⟩
        · intro t2 h
          rw [hA] at h
          exact ihnd t2 h
        · rw [hA, hB]
          exact iheq
        · intro st1 h
          rw [hA] at h
          exact ihok st1 h

/-- Claim C4: for every input net and any amount of fuel, the tree builder
never reaches the disabled-transition error branch of `fire_transition`:
every transition it fires was confirmed enabled on the very marking passed
to `fire_transition` (expanded nodes are ω-free, so the sentinel
substitution is the identity on them). -/
theorem build_tree_never_disabled (net : PetriNetwork) (fuel : Nat) (t : String) :
    build_tree net fuel ≠ .error (.disabledTransition t) :=
  (buildLoop_main net fuel (initState net) (inv_init net)).1 t

/-- Witness for C4 at a concrete net. -/
theorem build_tree_never_disabled_witness :
    build_tree exGrow 10 ≠ .error (.disabledTransition "t1") :=
  build_tree_never_disabled exGrow 10 "t1"

/-- Claim C6: the builder behaves exactly as if each successor were
accelerated by the spec's step 5b walk — the path root-to-current
inclusive is scanned in order, the first ancestor that is coverable by the
successor and not exactly equal to it (§4.1 definitions) triggers the §4.1
accelerate, and the walk stops there; later ancestors are never consulted.
For every net and fuel the code's build equals the build that uses that
walk verbatim. -/
theorem build_tree_accel_first_match (net : PetriNetwork) (fuel : Nat) :
    build_tree net fuel = buildLoopSpec net fuel (initState net) :=
  (buildLoop_main net fuel (initState net) (inv_init net)).2.1

/-- Claim C9: when the build completes, no node is left tagged `new`, every
`old` or `dead-end` node is childless, and every `processed` node has at
least one child. -/
theorem build_tree_final_tags (net : PetriNetwork) (fuel : Nat) (st : BuildState)
    (h : build_tree net fuel = .ok (some st)) :
    ∀ n ∈ st.nodes,
      (n.tag = "processed" ∨ n.tag = "old" ∨ n.tag = "dead-end") ∧
      ((n.tag = "old" ∨ n.tag = "dead-end") → n.children = []) ∧
      (n.tag = "processed" → n.children ≠ []) := by
  obtain ⟨hInv, hqe⟩ := (buildLoop_main net fuel (initState net) (inv_init net)).2.2 st h
  intro n hn
  obtain ⟨i, hi⟩ := List.mem_iff_get?.mp hn
  refine ⟨?_, hInv.leaf i n hi, hInv.proc i n hi⟩
  rcases hInv.tags i n hi with h1 | h1 | h1 | h1
  · have h2 := hInv.new_queued i n hi h1
    rw [hqe] at h2
    exact absurd h2 (by simp)
  · exact Or.inl h1
  · exact Or.inr (Or.inl h1)
  · exact Or.inr (Or.inr h1)

/-- Witness for C9 on the dead-end net, at its only node. -/
theorem build_tree_final_tags_witness :
    (({ marking := [MVal.fin 0], node_id := 0, tag := "dead-end", parent := none,
        children := [], transition := none, path_to_root := [0] } : TreeNode).tag =
          "processed" ∨
      ({ marking := [MVal.fin 0], node_id := 0, tag := "dead-end", parent := none,
         children := [], transition := none, path_to_root := [0] } : TreeNode).tag =
          "old" ∨
      ({ marking := [MVal.fin 0], node_id := 0, tag := "dead-end", parent := none,
         children := [], transition := none, path_to_root := [0] } : TreeNode).tag =
          "dead-end") ∧
    ((({ marking := [MVal.fin 0], node_id := 0, tag := "dead-end", parent := none,
         children := [], transition := none, path_to_root := [0] } : TreeNode).tag =
          "old" ∨
      ({ marking := [MVal.fin 0], node_id := 0, tag := "dead-end", parent := none,
         children := [], transition := none, path_to_root := [0] } : TreeNode).tag =
          "dead-end") →
      ({ marking := [MVal.fin 0], node_id := 0, tag := "dead-end", parent := none,
         children := [], transition := none, path_to_root := [0] } : TreeNode).children =
        []) ∧
    (({ marking := [MVal.fin 0], node_id := 0, tag := "dead-end", parent := none,
        children := [], transition := none, path_to_root := [0] } : TreeNode).tag =
          "processed" →
      ({ marking := [MVal.fin 0], node_id := 0, tag := "dead-end", parent := none,
         children := [], transition := none, path_to_root := [0] } : TreeNode).children ≠
        []) :=
  build_tree_final_tags exDead 3
    { nodes := [{ marking := [MVal.fin 0], node_id := 0, tag := "dead-end",
                  parent := none, children := [], transition := none,
                  path_to_root := [0] }],
      edges := [], queue := [], counter := 1 } rfl
    { marking := [MVal.fin 0], node_id := 0, tag := "dead-end", parent := none,
      children := [], transition := none, path_to_root := [0] } (by decide)

end KarpMiller
